import Mathlib

/-!
Verification development for the fetchfm repository.

We give a shallow embedding of the parts of the code the claims are about:

* `src/utils.py`  : `normalize_text`, `similarity` (difflib ratio)
* `src/db.py`     : `SongDatabase.add_song`, `remove_missing`, `find_match`,
                    `find_match_by_title`, `scan_music_library`
* `src/download.py` : `is_good_match` and its thresholds
* `src/config.py` : `AUDIO_EXTENSIONS`, `SIMILARITY_THRESHOLD`

Modelling conventions:

* Python strings are Lean `String`/`List Char`; Python floats are modelled as
  exact rationals `ℚ` (all ratios and thresholds involved are small exact
  fractions, so threshold comparisons agree with the exact values).
* The SQLite `songs` table is a `List Song` in row order (`SELECT` without
  `ORDER BY` yields insertion/rowid order; `INSERT OR REPLACE` deletes the
  conflicting row and appends a fresh one).
* `unicodedata` (NFKD, combining classes) and `str.lower` are modelled on
  ASCII plus a representative table of Latin accented letters; characters
  outside the modelled set decompose to themselves.
* The regular-expression substitutions of `normalize_text` are embedded as
  explicit scanners with Python `re` semantics (leftmost match, greedy `\s*`,
  lazy `.*?`, alternation tried in written order, `.` not matching newline).
* `difflib.SequenceMatcher.ratio` is embedded via the `j2len` dynamic
  program of `find_longest_match` (no junk: inputs are far below the
  autojunk cutoff) and the recursive matching-blocks decomposition.
-/

namespace Fetchfm

/-! ## Character model (str.lower, unicodedata, `\w`, `\s`) -/

/-- Python `str.lower`, modelled on ASCII letters; other characters are
returned unchanged (the accented letters in the NFKD table below are
already lowercase). -/
def pyLower (c : Char) : Char :=
  if 65 ≤ c.toNat ∧ c.toNat ≤ 90 then Char.ofNat (c.toNat + 32) else c

/-- Python `str.upper`, modelled on ASCII letters (used for
`ext.upper()` in `scan_music_library`). -/
def pyUpper (c : Char) : Char :=
  if 97 ≤ c.toNat ∧ c.toNat ≤ 122 then Char.ofNat (c.toNat - 32) else c

/-- Unicode combining character (class > 0), modelled as the combining
diacritical marks block U+0300 to U+036F. -/
def combining (c : Char) : Bool :=
  768 ≤ c.toNat && c.toNat ≤ 879

/-- NFKD decomposition of one character, modelled on a representative set of
lowercase Latin accented letters plus compatibility decompositions whose
output contains uppercase letters (numero sign to "No", Fahrenheit sign to
degree-"F", modifier letter capital K to "K"; none of the three source
characters is touched by `str.lower`); everything else decomposes to
itself.  The uppercase-emitting entries matter: the code lowercases
before NFKD, so their output is only lowercased by a second pass. -/
def nfkdChar (c : Char) : List Char :=
  if c = 'á' then ['a', '\u0301']
  else if c = 'é' then ['e', '\u0301']
  else if c = 'í' then ['i', '\u0301']
  else if c = 'ó' then ['o', '\u0301']
  else if c = 'ú' then ['u', '\u0301']
  else if c = 'â' then ['a', '\u0302']
  else if c = 'ê' then ['e', '\u0302']
  else if c = 'ô' then ['o', '\u0302']
  else if c = 'ã' then ['a', '\u0303']
  else if c = 'õ' then ['o', '\u0303']
  else if c = 'ü' then ['u', '\u0308']
  else if c = 'ç' then ['c', '\u0327']
  else if c = '\u2116' then ['N', 'o']
  else if c = '\u2109' then ['\u00b0', 'F']
  else if c = '\u1d37' then ['K']
  else [c]

/-- Python regex `\w` (word character), modelled as ASCII alphanumerics
plus underscore (digits 0-9, letters A-Z and a-z, and underscore). -/
def isWordChar (c : Char) : Bool :=
  (48 ≤ c.toNat && c.toNat ≤ 57) || (65 ≤ c.toNat && c.toNat ≤ 90) ||
  (97 ≤ c.toNat && c.toNat ≤ 122) || c = '_'

/-- Python `\s` and `str.split()` whitespace (ASCII part). -/
def isPySpace (c : Char) : Bool :=
  c = ' ' || c = '\t' || c = '\n' || c = '\r' || c = '\x0b' || c = '\x0c'

/-! ## List helpers shared by the regex scanners -/

/-- Length of the leading whitespace run (greedy `\s*`). -/
def wsRunLen : List Char → Nat
  | [] => 0
  | c :: rest => if isPySpace c then wsRunLen rest + 1 else 0

/-- Does `pat` match a prefix of `t`, comparing case-insensitively the way
`re.IGNORECASE` does (the patterns are lowercase literals)? -/
def startsWithCI : List Char → List Char → Bool
  | [], _ => true
  | _ :: _, [] => false
  | p :: ps, c :: cs => p = pyLower c && startsWithCI ps cs

/-- First `some` in a list of options (regex alternation / backtracking
preference order). -/
def firstSome : List (Option Nat) → Option Nat
  | [] => none
  | some x :: _ => some x
  | none :: rest => firstSome rest

/-! ## First substitution of `normalize_text`:
`\s*[\(\[].*?(radio|edit|...|\d{4}).*?[\)\]]` removed (re.sub). -/

/-- Candidate end offsets of one literal alternation branch at the start of
`t`, in backtracking order. -/
def litEnds (kw : List Char) (t : List Char) : List Nat :=
  if startsWithCI kw t then [kw.length] else []

/-- Candidate end offsets of a `kw\.?` branch (greedy `?`: with the dot
first). -/
def optDotEnds (kw : List Char) (t : List Char) : List Nat :=
  (if startsWithCI (kw ++ ['.']) t then [kw.length + 1] else []) ++
  (if startsWithCI kw t then [kw.length] else [])

/-- Candidate end offset of the `\d{4}` branch. -/
def yearEnds (t : List Char) : List Nat :=
  match t with
  | a :: b :: c :: d :: _ =>
      if a.isDigit && b.isDigit && c.isDigit && d.isDigit then [4] else []
  | _ => []

/-- All candidate keyword-match end offsets at the start of `t`, in the
order the alternation is written in `normalize_text`. -/
def branchEnds (t : List Char) : List Nat :=
  litEnds "radio".data t ++ litEnds "edit".data t ++
  litEnds "remaster".data t ++ litEnds "live".data t ++
  litEnds "version".data t ++ litEnds "remix".data t ++
  litEnds "acoustic".data t ++ optDotEnds "feat".data t ++
  optDotEnds "ft".data t ++ litEnds "bonus".data t ++
  litEnds "extended".data t ++ litEnds "single".data t ++
  litEnds "album".data t ++ litEnds "original".data t ++
  litEnds "official".data t ++ litEnds "video".data t ++
  litEnds "audio".data t ++ litEnds "hd".data t ++
  litEnds "hq".data t ++ yearEnds t

/-- Lazy `.*?[\)\]]`: offset of the first closing bracket reachable without
crossing a newline (`.` does not match newline). -/
def restClose : List Char → Option Nat
  | [] => none
  | c :: rest =>
      if c = ')' ∨ c = ']' then some 0
      else if c = '\n' then none
      else (restClose rest).map (fun n => n + 1)

/-- Try every alternation branch at the start of `t`; on branch end `e`,
finish with `.*?[\)\]]`.  Returns the number of characters of `t` consumed
by `(ALT).*?[\)\]]`. -/
def tryBranches (t : List Char) : Option Nat :=
  firstSome ((branchEnds t).map (fun e =>
    (restClose (t.drop e)).map (fun f => e + f + 1)))

/-- Lazy `.*?` before the alternation: advance one non-newline character at
a time, trying the branches at each position; `off` counts characters
already consumed.  Returns the total characters consumed after the opening
bracket. -/
def searchKw : List Char → Nat → Option Nat
  | t, off =>
      match tryBranches t with
      | some rel => some (off + rel)
      | none =>
          match t with
          | [] => none
          | c :: rest => if c = '\n' then none else searchKw rest (off + 1)

/-- Attempt the whole pattern `\s*[\(\[].*?(ALT).*?[\)\]]` at the start of
`s`; returns the length of the match. -/
def tryMatch1 (s : List Char) : Option Nat :=
  let w := wsRunLen s
  match s.drop w with
  | c :: rest =>
      if c = '(' ∨ c = '[' then
        (searchKw rest 0).map (fun z => w + 1 + z)
      else none
  | [] => none

/-- `re.sub` scan for the first pattern: try a match at every position,
left to right, removing each match (fuel is the list length; every step
consumes at least one character). -/
def sub1F : Nat → List Char → List Char
  | 0, s => s
  | _ + 1, [] => []
  | fuel + 1, c :: rest =>
      match tryMatch1 (c :: rest) with
      | some k => sub1F fuel ((c :: rest).drop k)
      | none => c :: sub1F fuel rest

/-- The first substitution of `normalize_text`. -/
def sub1 (s : List Char) : List Char := sub1F s.length s

/-! ## Second substitution of `normalize_text`:
`\s*[-–—]\s*(remaster|live|acoustic|remix|ao vivo|remasterizado).*$` -/

/-- The three dash characters of the second pattern (hyphen-minus, en dash,
em dash). -/
def dashChar (c : Char) : Bool :=
  c = '-' || c.toNat = 8211 || c.toNat = 8212

/-- Alternation branches of the second pattern, in written order. -/
def branch2Ends (t : List Char) : List Nat :=
  litEnds "remaster".data t ++ litEnds "live".data t ++
  litEnds "acoustic".data t ++ litEnds "remix".data t ++
  litEnds "ao vivo".data t ++ litEnds "remasterizado".data t

/-- Greedy `.*$` (no MULTILINE): consumes the maximal newline-free prefix;
succeeds when nothing, or only a final newline, remains. -/
def dotStarDollar (v : List Char) : Option Nat :=
  let p := v.takeWhile (fun c => c ≠ '\n')
  match v.drop p.length with
  | [] => some p.length
  | [c] => if c = '\n' then some p.length else none
  | _ => none

/-- Attempt the whole second pattern at the start of `s`; returns the
length of the match. -/
def tryMatch2 (s : List Char) : Option Nat :=
  let w := wsRunLen s
  match s.drop w with
  | c :: rest =>
      if dashChar c then
        let w2 := wsRunLen rest
        let u := rest.drop w2
        (firstSome ((branch2Ends u).map (fun e =>
          (dotStarDollar (u.drop e)).map (fun z => e + z)))).map
          (fun z2 => w + 1 + w2 + z2)
      else none
  | [] => none

/-- `re.sub` scan for the second pattern. -/
def sub2F : Nat → List Char → List Char
  | 0, s => s
  | _ + 1, [] => []
  | fuel + 1, c :: rest =>
      match tryMatch2 (c :: rest) with
      | some k => sub2F fuel ((c :: rest).drop k)
      | none => c :: sub2F fuel rest

/-- The second substitution of `normalize_text`. -/
def sub2 (s : List Char) : List Char := sub2F s.length s

/-! ## Remaining stages of `normalize_text` -/

/-- `unicodedata.normalize("NFKD", text)` followed by dropping combining
characters. -/
def nfkdStrip (s : List Char) : List Char :=
  (s.map nfkdChar).flatten.filter (fun c => !combining c)

/-- `re.sub(r"[^\w\s]", " ", text)`: every character that is neither a word
character nor whitespace becomes a single space. -/
def keepWordSpace (s : List Char) : List Char :=
  s.map (fun c => if isWordChar c || isPySpace c then c else ' ')

/-- `str.split()`: maximal runs of non-whitespace characters. -/
def splitWsAux : List Char → List Char → List (List Char)
  | [], acc => if acc = [] then [] else [acc.reverse]
  | c :: rest, acc =>
      if isPySpace c then
        if acc = [] then splitWsAux rest []
        else acc.reverse :: splitWsAux rest []
      else splitWsAux rest (c :: acc)

/-- `text.split()`. -/
def splitWs (s : List Char) : List (List Char) := splitWsAux s []

/-- `" ".join(words)`. -/
def joinSp : List (List Char) → List Char
  | [] => []
  | [w] => w
  | w :: ws => w ++ ' ' :: joinSp ws

/-- `" ".join(text.split())`. -/
def collapseWS (s : List Char) : List Char := joinSp (splitWs s)

/-- `normalize_text` from `src/utils.py`, on character lists. -/
def normList (s : List Char) : List Char :=
  if s = [] then []
  else collapseWS (keepWordSpace (nfkdStrip (sub2 (sub1 (s.map pyLower)))))

/-- `normalize_text` from `src/utils.py`. -/
def normalize_text (s : String) : String := ⟨normList s.data⟩

/-! ## `similarity` from `src/utils.py` (difflib ratio) -/

/-- Are positions `i` of `a` and `j` of `b` both valid and equal? -/
def cseq (a b : List Char) (i j : Nat) : Bool :=
  match a.get? i, b.get? j with
  | some x, some y => x = y
  | _, _ => false

/-- `j2len` entry of `find_longest_match`: length of the longest common
block ending exactly at positions `i` of `a` and `j` of `b`. -/
def csl (a b : List Char) : Nat → Nat → Nat
  | 0, j => if cseq a b 0 j then 1 else 0
  | i + 1, 0 => if cseq a b (i + 1) 0 then 1 else 0
  | i + 1, j + 1 => if cseq a b (i + 1) (j + 1) then csl a b i j + 1 else 0

/-- One update of the running best `(besti, bestj, bestsize)` when the
block ending at `(i, j)` is strictly longer. -/
def flmUpd (a b : List Char) (i j : Nat) (best : Nat × Nat × Nat) :
    Nat × Nat × Nat :=
  let k := csl a b i j
  if best.2.2 < k then (i + 1 - k, j + 1 - k, k) else best

/-- `find_longest_match` of `difflib.SequenceMatcher` (no junk): scan all
end positions in ascending `(i, j)` order, keeping the first strictly
longest block. -/
def flm (a b : List Char) : Nat × Nat × Nat :=
  (List.range a.length).foldl
    (fun best i => (List.range b.length).foldl
      (fun best j => flmUpd a b i j best) best)
    (0, 0, 0)

/-- Total size of the matching blocks (`get_matching_blocks` recursion),
with fuel; recursion splits around the longest match. -/
def matchesTotalF : Nat → List Char → List Char → Nat
  | 0, _, _ => 0
  | fuel + 1, a, b =>
      let r := flm a b
      if r.2.2 = 0 then 0
      else
        matchesTotalF fuel (a.take r.1) (b.take r.2.1) + r.2.2 +
        matchesTotalF fuel (a.drop (r.1 + r.2.2)) (b.drop (r.2.1 + r.2.2))

/-- Total size of the matching blocks of `a` and `b`. -/
def matchesTotal (a b : List Char) : Nat := matchesTotalF a.length a b

/-- `similarity` from `src/utils.py`: `SequenceMatcher(None, s1, s2).ratio()`,
i.e. `2.0 * M / T` (and 1.0 when both strings are empty). -/
def similarity (s1 s2 : String) : ℚ :=
  let a := s1.data
  let b := s2.data
  if a.length + b.length = 0 then 1
  else (2 * (matchesTotal a b : ℚ)) / ((a.length : ℚ) + (b.length : ℚ))

/-! ## `src/config.py` -/

/-- `SIMILARITY_THRESHOLD` from `src/config.py`. -/
def SIMILARITY_THRESHOLD : ℚ := 7/10

/-- `AUDIO_EXTENSIONS` from `src/config.py` (a Python set; modelled as a
list, iteration order irrelevant to the claims). -/
def AUDIO_EXTENSIONS : List String :=
  [".mp3", ".flac", ".m4a", ".ogg", ".opus", ".wav", ".wma"]

/-! ## `src/db.py`: data model -/

/-- A row of the `songs` table. -/
structure Song where
  path : String
  artist : String
  artist_norm : String
  title : String
  title_norm : String
  mtime : ℚ
deriving DecidableEq

/-- The dict built by `find_match` / `find_match_by_title` on success. -/
structure MatchResult where
  path : String
  artist : String
  title : String
  score : ℚ
deriving DecidableEq

/-- A file on disk, as `scan_music_library` sees it: its path, its mtime,
and the metadata `get_song_metadata` would extract from it (the
tag-extraction collaborator is modelled as data carried by the file). -/
structure FSFile where
  path : String
  mtime : ℚ
  artist : String
  title : String
deriving DecidableEq

/-! ## `src/db.py`: operations -/

/-- `SongDatabase.add_song`: `INSERT OR REPLACE` keyed by the UNIQUE
`path` column (the conflicting row is deleted, the new row appended), with
`artist_norm` and `title_norm` recomputed from the display strings. -/
def add_song (db : List Song) (path artist title : String) (mtime : ℚ) :
    List Song :=
  db.filter (fun r => r.path ≠ path) ++
    [⟨path, artist, normalize_text artist, title, normalize_text title, mtime⟩]

/-- `SongDatabase.remove_missing`: delete every row whose path is not in
`existing` (rows with `path ∈ db_paths - existing` are deleted; keeping a
row is equivalent to its path being in `existing`). -/
def remove_missing (db : List Song) (existing : List String) : List Song :=
  db.filter (fun r => decide (r.path ∈ existing))

/-- One iteration of the `find_match` loop over the rows: skip the row
when either similarity is below `SIMILARITY_THRESHOLD`, otherwise compare
the combined score strictly against the running best. -/
def fmStep (artist_norm title_norm : String)
    (best : Option MatchResult × ℚ) (row : Song) : Option MatchResult × ℚ :=
  let artist_sim := similarity artist_norm row.artist_norm
  if artist_sim < SIMILARITY_THRESHOLD then best
  else
    let title_sim := similarity title_norm row.title_norm
    if title_sim < SIMILARITY_THRESHOLD then best
    else
      let score := artist_sim * (3/10) + title_sim * (7/10)
      if best.2 < score then
        (some ⟨row.path, row.artist, row.title, score⟩, score)
      else best

/-- `SongDatabase.find_match`: fuzzy artist+title lookup (thresholds at
`SIMILARITY_THRESHOLD`, score `0.3 * artist_sim + 0.7 * title_sim`,
strict improvement against a running best starting at 0). -/
def find_match (db : List Song) (artist title : String) : Option MatchResult :=
  (db.foldl (fmStep (normalize_text artist) (normalize_text title))
    ((none : Option MatchResult), (0 : ℚ))).1

/-- One iteration of the `find_match_by_title` loop over the rows. -/
def ftStep (title_norm : String) (threshold : ℚ)
    (best : Option MatchResult × ℚ) (row : Song) : Option MatchResult × ℚ :=
  let title_sim := similarity title_norm row.title_norm
  if title_sim < threshold then best
  else if best.2 < title_sim then
    (some ⟨row.path, row.artist, row.title, title_sim⟩, title_sim)
  else best

/-- `SongDatabase.find_match_by_title`: title-only lookup against a caller
threshold (the Python default is `0.80`). -/
def find_match_by_title (db : List Song) (title : String) (threshold : ℚ) :
    Option MatchResult :=
  (db.foldl (ftStep (normalize_text title) threshold)
    ((none : Option MatchResult), (0 : ℚ))).1

/-! ## `src/db.py`: `scan_music_library` -/

/-- Case-sensitive suffix test: does `s` end with `suf`?  (Glob `*{ext}`
keeps exactly the paths ending in `ext`; `Path.rglob` is case-sensitive
on POSIX.) -/
def endsWithExact (suf s : List Char) : Bool :=
  decide (s.drop (s.length - suf.length) = suf) && decide (suf.length ≤ s.length)

/-- The enumeration filter of `scan_music_library`: for each extension the
code runs `rglob(f"*{ext}")` and `rglob(f"*{ext.upper()}")`, so a path is
enumerated exactly when it ends with the lowercase or the uppercase form
of an extension. -/
def hasAudioExt (p : String) : Bool :=
  AUDIO_EXTENSIONS.any (fun e =>
    endsWithExact e.data p.data || endsWithExact (e.data.map pyUpper) p.data)

/-- The audio files `scan_music_library` enumerates under the root. -/
def enum_audio (fs : List FSFile) : List FSFile :=
  fs.filter (fun f => hasAudioExt f.path)

/-- The `indexed` dict of `scan_music_library`: built by iterating the
rows, later rows overwriting earlier ones. -/
def lookupMtime (db : List Song) (p : String) : Option ℚ :=
  db.foldl (fun acc r => if r.path = p then some r.mtime else acc) none

/-- The skip condition of the `scan_music_library` loop:
`not force and path_str in indexed and indexed[path_str] >= mtime`. -/
def shouldSkip (indexed : String → Option ℚ) (force : Bool) (f : FSFile) :
    Bool :=
  !force &&
    (match indexed f.path with
     | some m => decide (f.mtime ≤ m)
     | none => false)

/-- One iteration of the add/update loop of `scan_music_library`: skip the
file when `not force and path in indexed and indexed[path] >= mtime`,
otherwise extract metadata (counted) and `add_song` it. -/
def scanStep (indexed : String → Option ℚ) (force : Bool)
    (acc : List Song × Nat) (f : FSFile) : List Song × Nat :=
  if shouldSkip indexed force f then acc
  else (add_song acc.1 f.path f.artist f.title f.mtime, acc.2 + 1)

/-- `scan_music_library` from `src/db.py`: enumerate audio files, drop
index rows for missing paths, then add/update new or modified files.
Returns the final rows, the reported total (`get_song_count`, the row
count), and the number of metadata extractions performed
(`get_song_metadata` is called exactly once per non-skipped file). -/
def scan_music_library (db : List Song) (fs : List FSFile) (force : Bool) :
    List Song × Nat × Nat :=
  let files := enum_audio fs
  let existing := files.map (fun f => f.path)
  let db1 := remove_missing db existing
  let res := files.foldl (scanStep (lookupMtime db1) force) (db1, 0)
  (res.1, res.1.length, res.2)

/-! ## `src/download.py`: `is_good_match` -/

/-- `ARTIST_THRESHOLD` from `src/download.py`. -/
def ARTIST_THRESHOLD : ℚ := 1/2

/-- `TITLE_THRESHOLD` from `src/download.py`. -/
def TITLE_THRESHOLD : ℚ := 1/2

/-- `TITLE_HIGH_THRESHOLD` from `src/download.py`. -/
def TITLE_HIGH_THRESHOLD : ℚ := 8/10

/-- `is_good_match` from `src/download.py`: normalize all four strings,
compare similarities against the thresholds, and return the decision with
both scores. -/
def is_good_match (req_artist req_title match_artist match_title : String) :
    Bool × ℚ × ℚ :=
  let req_artist_norm := normalize_text req_artist
  let req_title_norm := normalize_text req_title
  let match_artist_norm := normalize_text match_artist
  let match_title_norm := normalize_text match_title
  let artist_sim := similarity req_artist_norm match_artist_norm
  let title_sim := similarity req_title_norm match_title_norm
  if artist_sim ≥ ARTIST_THRESHOLD ∧ title_sim ≥ TITLE_THRESHOLD then
    (true, artist_sim, title_sim)
  else if title_sim ≥ TITLE_HIGH_THRESHOLD then
    (true, artist_sim, title_sim)
  else (false, artist_sim, title_sim)

/-! # Theorems

## Character-level stability facts used for idempotence of `normalize_text` -/

theorem toNat_ofNat_letter (n : Nat) (h1 : 97 ≤ n) (h2 : n ≤ 122) :
    (Char.ofNat n).toNat = n := by
  interval_cases n <;> decide

theorem pyLower_idem (c : Char) : pyLower (pyLower c) = pyLower c := by
  unfold pyLower
  split
  case isTrue h =>
    have hv : (Char.ofNat (c.toNat + 32)).toNat = c.toNat + 32 :=
      toNat_ofNat_letter _ (by omega) (by omega)
    rw [if_neg]
    rw [hv]
    omega
  case isFalse h => rfl

/-- An ASCII character differs from any non-ASCII character. -/
theorem ne_of_ascii (c : Char) (h : c.toNat < 128) (d : Char)
    (hd : 128 ≤ d.toNat) : c ≠ d := by
  intro he
  subst he
  omega

/-- ASCII characters have no NFKD decomposition: every key of the
decomposition table is non-ASCII. -/
theorem nfkdChar_ascii (c : Char) (h : c.toNat < 128) : nfkdChar c = [c] := by
  unfold nfkdChar
  rw [if_neg (ne_of_ascii c h _ (by decide)),
    if_neg (ne_of_ascii c h _ (by decide)),
    if_neg (ne_of_ascii c h _ (by decide)),
    if_neg (ne_of_ascii c h _ (by decide)),
    if_neg (ne_of_ascii c h _ (by decide)),
    if_neg (ne_of_ascii c h _ (by decide)),
    if_neg (ne_of_ascii c h _ (by decide)),
    if_neg (ne_of_ascii c h _ (by decide)),
    if_neg (ne_of_ascii c h _ (by decide)),
    if_neg (ne_of_ascii c h _ (by decide)),
    if_neg (ne_of_ascii c h _ (by decide)),
    if_neg (ne_of_ascii c h _ (by decide)),
    if_neg (ne_of_ascii c h _ (by decide)),
    if_neg (ne_of_ascii c h _ (by decide)),
    if_neg (ne_of_ascii c h _ (by decide))]

/-- ASCII characters are not combining characters. -/
theorem combining_ascii (c : Char) (h : c.toNat < 128) :
    combining c = false := by
  unfold combining
  rw [decide_eq_false (by omega : ¬ 768 ≤ c.toNat)]
  rfl

/-- `pyLower` maps ASCII to ASCII. -/
theorem pyLower_ascii_lt (c : Char) (h : c.toNat < 128) :
    (pyLower c).toNat < 128 := by
  unfold pyLower
  split
  · rename_i hr
    rw [toNat_ofNat_letter _ (by omega) (by omega)]
    omega
  · exact h

/-! ## Stage identities: each stage of `normalize_text` fixes already-clean
strings -/

theorem map_eq_self_of {α : Type} (f : α → α) (l : List α)
    (h : ∀ c ∈ l, f c = c) : l.map f = l := by
  induction l with
  | nil => rfl
  | cons a t ih =>
      simp only [List.map_cons, h a (List.mem_cons_self a t)]
      rw [ih (fun c hc => h c (List.mem_cons_of_mem a hc))]

theorem tryMatch1_eq_none (s : List Char) (hs : ∀ c ∈ s, c ≠ '(' ∧ c ≠ '[') :
    tryMatch1 s = none := by
  simp only [tryMatch1]
  rcases hd : s.drop (wsRunLen s) with _ | ⟨c, rest⟩
  · rfl
  · have hc : c ∈ s :=
      List.drop_subset _ s (by rw [hd]; exact List.mem_cons_self c rest)
    rcases hs c hc with ⟨h1, h2⟩
    dsimp only
    rw [if_neg]
    rintro (rfl | rfl)
    · exact h1 rfl
    · exact h2 rfl

theorem sub1F_eq_self (fuel : Nat) (s : List Char)
    (hs : ∀ c ∈ s, c ≠ '(' ∧ c ≠ '[') : sub1F fuel s = s := by
  induction fuel generalizing s with
  | zero => rfl
  | succ n ih =>
      cases s with
      | nil => rfl
      | cons a rest =>
          simp only [sub1F, tryMatch1_eq_none (a :: rest) hs]
          rw [ih rest (fun c hc => hs c (List.mem_cons_of_mem a hc))]

theorem sub1_eq_self (s : List Char) (hs : ∀ c ∈ s, c ≠ '(' ∧ c ≠ '[') :
    sub1 s = s :=
  sub1F_eq_self s.length s hs

theorem tryMatch2_eq_none (s : List Char) (hs : ∀ c ∈ s, dashChar c = false) :
    tryMatch2 s = none := by
  simp only [tryMatch2]
  rcases hd : s.drop (wsRunLen s) with _ | ⟨c, rest⟩
  · rfl
  · have hc : c ∈ s :=
      List.drop_subset _ s (by rw [hd]; exact List.mem_cons_self c rest)
    dsimp only
    rw [hs c hc]
    rfl

theorem sub2F_eq_self (fuel : Nat) (s : List Char)
    (hs : ∀ c ∈ s, dashChar c = false) : sub2F fuel s = s := by
  induction fuel generalizing s with
  | zero => rfl
  | succ n ih =>
      cases s with
      | nil => rfl
      | cons a rest =>
          simp only [sub2F, tryMatch2_eq_none (a :: rest) hs]
          rw [ih rest (fun c hc => hs c (List.mem_cons_of_mem a hc))]

theorem sub2_eq_self (s : List Char) (hs : ∀ c ∈ s, dashChar c = false) :
    sub2 s = s :=
  sub2F_eq_self s.length s hs

theorem nfkdStrip_eq_self (s : List Char)
    (hs : ∀ c ∈ s, nfkdChar c = [c] ∧ combining c = false) :
    nfkdStrip s = s := by
  induction s with
  | nil => rfl
  | cons a rest ih =>
      rcases hs a (List.mem_cons_self a rest) with ⟨h1, h2⟩
      simp only [nfkdStrip, List.map_cons, List.flatten_cons, h1,
        List.filter_append] at *
      have hfa : List.filter (fun c => !combining c) [a] = [a] := by
        simp [h2]
      rw [hfa, ih (fun c hc => hs c (List.mem_cons_of_mem a hc)),
        List.singleton_append]

theorem keepWordSpace_eq_self (s : List Char)
    (hs : ∀ c ∈ s, (isWordChar c || isPySpace c) = true) :
    keepWordSpace s = s :=
  map_eq_self_of _ s (fun c hc => by simp [hs c hc])

/-! ## `str.split` / `" ".join` structure -/

theorem splitWsAux_ne_nil (s : List Char) : ∀ acc, ∀ w ∈ splitWsAux s acc,
    w ≠ [] := by
  induction s with
  | nil =>
      intro acc w hw
      simp only [splitWsAux] at hw
      split at hw
      · simp at hw
      · rename_i hacc
        simp at hw
        subst hw
        simpa using hacc
  | cons a rest ih =>
      intro acc w hw
      simp only [splitWsAux] at hw
      split at hw
      · split at hw
        · exact ih [] w hw
        · rcases List.mem_cons.mp hw with rfl | hw2
          · rename_i hacc; simpa using hacc
          · exact ih [] w hw2
      · exact ih (a :: acc) w hw

theorem splitWsAux_chars (Q : Char → Prop) (s : List Char) :
    ∀ acc, (∀ c ∈ s, isPySpace c = false → Q c) →
    (∀ c ∈ acc, Q c ∧ isPySpace c = false) →
    ∀ w ∈ splitWsAux s acc, ∀ c ∈ w, Q c ∧ isPySpace c = false := by
  induction s with
  | nil =>
      intro acc _hs hacc w hw c hc
      simp only [splitWsAux] at hw
      split at hw
      · simp at hw
      · simp at hw
        subst hw
        exact hacc c (by simpa using hc)
  | cons a rest ih =>
      intro acc hs hacc w hw c hc
      simp only [splitWsAux] at hw
      have hrest : ∀ c ∈ rest, isPySpace c = false → Q c :=
        fun c hcr hsp => hs c (List.mem_cons_of_mem a hcr) hsp
      split at hw
      · split at hw
        · exact ih [] hrest (by simp) w hw c hc
        · rcases List.mem_cons.mp hw with rfl | hw2
          · exact hacc c (by simpa using hc)
          · exact ih [] hrest (by simp) w hw2 c hc
      · rename_i hsp
        have hsp' : isPySpace a = false := by
          rcases h : isPySpace a with _ | _
          · rfl
          · exact absurd h hsp
        refine ih (a :: acc) hrest ?_ w hw c hc
        intro d hd
        rcases List.mem_cons.mp hd with rfl | hd2
        · exact ⟨hs _ (List.mem_cons_self _ _) hsp', hsp'⟩
        · exact hacc d hd2

theorem splitWsAux_word (w : List Char) (hw : ∀ c ∈ w, isPySpace c = false) :
    ∀ rest acc, splitWsAux (w ++ rest) acc = splitWsAux rest (w.reverse ++ acc) := by
  induction w with
  | nil => intro rest acc; rfl
  | cons a t ih =>
      intro rest acc
      have ha : isPySpace a = false := hw a (List.mem_cons_self a t)
      simp only [List.cons_append, splitWsAux, ha, List.append_eq]
      rw [if_neg (by simp)]
      rw [ih (fun c hc => hw c (List.mem_cons_of_mem a hc)) rest (a :: acc)]
      simp

theorem splitWs_joinSp (L : List (List Char))
    (hL : ∀ w ∈ L, w ≠ [] ∧ ∀ c ∈ w, isPySpace c = false) :
    splitWs (joinSp L) = L := by
  induction L with
  | nil => rfl
  | cons w L' ih =>
      rcases hL w (List.mem_cons_self w L') with ⟨hw1, hw2⟩
      have hL' : ∀ v ∈ L', v ≠ [] ∧ ∀ c ∈ v, isPySpace c = false :=
        fun v hv => hL v (List.mem_cons_of_mem w hv)
      cases L' with
      | nil =>
          show splitWsAux w [] = [w]
          have := splitWsAux_word w hw2 [] []
          rw [List.append_nil] at this
          rw [this]
          simp only [splitWsAux, List.append_nil]
          rw [if_neg (by simpa using hw1)]
          simp
      | cons w2 L'' =>
          show splitWsAux (w ++ ' ' :: joinSp (w2 :: L'')) [] = w :: w2 :: L''
          rw [splitWsAux_word w hw2 (' ' :: joinSp (w2 :: L'')) []]
          simp only [splitWsAux, isPySpace]
          rw [if_pos (by simp)]
          rw [if_neg (by simpa using hw1)]
          rw [List.append_nil, List.reverse_reverse]
          exact congrArg (w :: ·) (ih hL')

theorem mem_joinSp (L : List (List Char)) (c : Char) (h : c ∈ joinSp L) :
    c = ' ' ∨ ∃ w ∈ L, c ∈ w := by
  induction L with
  | nil => simp [joinSp] at h
  | cons w L' ih =>
      cases L' with
      | nil =>
          right
          exact ⟨w, List.mem_cons_self w [], h⟩
      | cons w2 L'' =>
          simp only [joinSp] at h
          rcases List.mem_append.mp h with h1 | h2
          · right; exact ⟨w, List.mem_cons_self _ _, h1⟩
          · rcases List.mem_cons.mp h2 with rfl | h3
            · left; rfl
            · rcases ih h3 with h4 | ⟨v, hv, hcv⟩
              · left; exact h4
              · right; exact ⟨v, List.mem_cons_of_mem w hv, hcv⟩

theorem collapseWS_idem (s : List Char) :
    collapseWS (collapseWS s) = collapseWS s := by
  unfold collapseWS
  rw [splitWs_joinSp (splitWs s)]
  intro w hw
  refine ⟨splitWsAux_ne_nil s [] w hw, fun c hc => ?_⟩
  exact (splitWsAux_chars (fun _ => True) s [] (fun _ _ _ => trivial)
    (by simp) w hw c hc).2

/-! ## Characters surviving `normalize_text` are stable under every stage -/

theorem mem_sub1F (fuel : Nat) (s : List Char) (c : Char)
    (h : c ∈ sub1F fuel s) : c ∈ s := by
  induction fuel generalizing s with
  | zero => exact h
  | succ n ih =>
      cases s with
      | nil =>
          rw [show sub1F (n + 1) ([] : List Char) = [] from rfl] at h
          simp at h
      | cons a rest =>
          simp only [sub1F] at h
          rcases hm : tryMatch1 (a :: rest) with _ | k
          · rw [hm] at h
            rcases List.mem_cons.mp h with rfl | h2
            · exact List.mem_cons_self _ _
            · exact List.mem_cons_of_mem a (ih rest h2)
          · rw [hm] at h
            exact List.drop_subset _ _ (ih _ h)

theorem mem_sub2F (fuel : Nat) (s : List Char) (c : Char)
    (h : c ∈ sub2F fuel s) : c ∈ s := by
  induction fuel generalizing s with
  | zero => exact h
  | succ n ih =>
      cases s with
      | nil =>
          rw [show sub2F (n + 1) ([] : List Char) = [] from rfl] at h
          simp at h
      | cons a rest =>
          simp only [sub2F] at h
          rcases hm : tryMatch2 (a :: rest) with _ | k
          · rw [hm] at h
            rcases List.mem_cons.mp h with rfl | h2
            · exact List.mem_cons_self _ _
            · exact List.mem_cons_of_mem a (ih rest h2)
          · rw [hm] at h
            exact List.drop_subset _ _ (ih _ h)

theorem mem_sub1 (s : List Char) (c : Char) (h : c ∈ sub1 s) : c ∈ s :=
  mem_sub1F s.length s c h

theorem mem_sub2 (s : List Char) (c : Char) (h : c ∈ sub2 s) : c ∈ s :=
  mem_sub2F s.length s c h

theorem keepWordSpace_mem (t : List Char) (c : Char) (h : c ∈ keepWordSpace t) :
    (isWordChar c || isPySpace c) = true ∧
    (isPySpace c = false → c ∈ t ∧ isWordChar c = true) := by
  obtain ⟨x, hx, hfx⟩ := List.mem_map.mp h
  by_cases hcond : (isWordChar x || isPySpace x) = true
  · rw [if_pos hcond] at hfx
    subst hfx
    refine ⟨hcond, fun hnsp => ⟨hx, ?_⟩⟩
    rcases Bool.or_eq_true _ _ |>.mp hcond with hw | hs
    · exact hw
    · rw [hs] at hnsp; cases hnsp
  · rw [if_neg hcond] at hfx
    subst hfx
    exact ⟨by decide, fun hnsp => by cases hnsp⟩

theorem nfkdStrip_mem (t : List Char) (c : Char) (h : c ∈ nfkdStrip t) :
    combining c = false ∧ ∃ x ∈ t, c ∈ nfkdChar x := by
  simp only [nfkdStrip, List.mem_filter, List.mem_flatten, List.mem_map] at h
  obtain ⟨⟨l, ⟨x, hx, hlx⟩, hcl⟩, hcomb⟩ := h
  subst hlx
  exact ⟨by simpa using hcomb, x, hx, hcl⟩

/-- Every character of a `normalize_text` output on an ASCII input is
lowercase-stable, NFKD-stable, non-combining, and a word character or the
separating space (on ASCII input every stage of the pipeline is exact). -/
theorem normList_chars_ascii (s : List Char) (hs : ∀ c ∈ s, c.toNat < 128)
    (c : Char) (h : c ∈ normList s) :
    pyLower c = c ∧ nfkdChar c = [c] ∧ combining c = false ∧
      (isWordChar c = true ∨ c = ' ') := by
  by_cases h0 : s = []
  · subst h0; simp [normList] at h
  rw [normList, if_neg h0] at h
  rcases mem_joinSp _ c h with rfl | ⟨w, hw, hcw⟩
  · exact ⟨by decide, by decide, by decide, Or.inr rfl⟩
  · obtain ⟨hct5, hnsp⟩ :=
      splitWsAux_chars
        (fun d => d ∈ keepWordSpace (nfkdStrip (sub2 (sub1 (s.map pyLower)))))
        _ [] (fun d hd _ => hd) (by simp) w hw c hcw
    obtain ⟨_, himp⟩ := keepWordSpace_mem _ c hct5
    obtain ⟨hc4, hword⟩ := himp hnsp
    obtain ⟨hcomb, x, hx3, hcx⟩ := nfkdStrip_mem _ c hc4
    have hx1 := mem_sub1 _ x (mem_sub2 _ x hx3)
    obtain ⟨y, hy, hyx⟩ := List.mem_map.mp hx1
    have hxst : pyLower x = x := by rw [← hyx]; exact pyLower_idem y
    have hxa : x.toNat < 128 := by
      rw [← hyx]
      exact pyLower_ascii_lt y (hs y hy)
    rw [nfkdChar_ascii x hxa, List.mem_singleton] at hcx
    subst hcx
    exact ⟨hxst, nfkdChar_ascii c hxa, hcomb, Or.inl hword⟩

/-- A word-or-space character is not an opening bracket, not a dash, and
passes the `[^\w\s]` substitution unchanged. -/
theorem stable_stage (c : Char) (h : isWordChar c = true ∨ c = ' ') :
    c ≠ '(' ∧ c ≠ '[' ∧ dashChar c = false ∧
      (isWordChar c || isPySpace c) = true := by
  rcases h with h | rfl
  · refine ⟨?_, ?_, ?_, by simp [h]⟩
    · rintro rfl; revert h; decide
    · rintro rfl; revert h; decide
    · cases hdc : dashChar c with
      | false => rfl
      | true =>
          exfalso
          simp only [dashChar, Bool.or_eq_true, decide_eq_true_eq] at hdc
          simp only [isWordChar, Bool.or_eq_true, Bool.and_eq_true,
            decide_eq_true_eq] at h
          have h45 : Char.toNat '-' = 45 := by decide
          have h95 : Char.toNat '_' = 95 := by decide
          rcases hdc with (h2 | h2) | h2 <;>
            rcases h with ((h | h) | h) | h <;>
              (try subst h2) <;> (try subst h) <;>
              first
                | omega
                | exact absurd h (by decide)
  · decide

/-! ## Idempotence of `normalize_text` (claim C6) -/

/-- `normalize_text` fixes any string of stage-stable characters whose
whitespace is already collapsed. -/
theorem normList_fix (r : List Char)
    (hch : ∀ c ∈ r, pyLower c = c ∧ nfkdChar c = [c] ∧ combining c = false ∧
      (isWordChar c = true ∨ c = ' '))
    (hcoll : collapseWS r = r) :
    normList r = r := by
  by_cases hr0 : r = []
  · subst hr0; simp [normList]
  · have hst := fun c hc => stable_stage c (hch c hc).2.2.2
    rw [normList, if_neg hr0]
    rw [map_eq_self_of pyLower r (fun c hc => (hch c hc).1),
      sub1_eq_self r (fun c hc => ⟨(hst c hc).1, (hst c hc).2.1⟩),
      sub2_eq_self r (fun c hc => (hst c hc).2.2.1),
      nfkdStrip_eq_self r (fun c hc => ⟨(hch c hc).2.1, (hch c hc).2.2.1⟩),
      keepWordSpace_eq_self r (fun c hc => (hst c hc).2.2.2), hcoll]

theorem collapseWS_normList (s : List Char) :
    collapseWS (normList s) = normList s := by
  by_cases h0 : s = []
  · subst h0
    show collapseWS (normList []) = normList []
    rfl
  · rw [normList, if_neg h0]
    exact collapseWS_idem _

theorem normList_idem_ascii (s : List Char) (hs : ∀ c ∈ s, c.toNat < 128) :
    normList (normList s) = normList s :=
  normList_fix (normList s) (fun c hc => normList_chars_ascii s hs c hc)
    (collapseWS_normList s)

/-- C6 counterexample: the normalizer is NOT idempotent.  The code
lowercases before NFKD, but NFKD compatibility decompositions can emit
uppercase letters: the numero sign is untouched by `str.lower` and
decomposes to "No", which `[^\w\s]` keeps, so `normalize("\u2116") = "No"`
while a second pass lowercases it to "no". -/
theorem c6_counterexample :
    normalize_text "№" = "No" ∧
    normalize_text (normalize_text "№") = "no" ∧
    normalize_text (normalize_text "№") ≠ normalize_text "№" := by
  refine ⟨by decide, by decide, by decide⟩

/-- C6 (amended): the normalizer is idempotent on every string of ASCII
characters (where the character pipeline is exact: ASCII has no NFKD
decompositions, no combining characters, and `str.lower` is the ASCII
map); it is not idempotent in general, because NFKD runs after `lower()`
and compatibility decompositions such as the numero sign emit uppercase
letters that only a second pass lowercases. -/
theorem c6_amended_normalize_idem_ascii (x : String)
    (hx : ∀ c ∈ x.data, c.toNat < 128) :
    normalize_text (normalize_text x) = normalize_text x := by
  unfold normalize_text
  exact congrArg String.mk (normList_idem_ascii x.data hx)

theorem c6_amended_normalize_idem_ascii_witness :
    normalize_text (normalize_text "Song (Radio Edit)") =
      normalize_text "Song (Radio Edit)" :=
  c6_amended_normalize_idem_ascii "Song (Radio Edit)" (by decide)

/-! ## Bounds on the difflib ratio -/

theorem foldl_inv {α β : Type} (P : β → Prop) (f : β → α → β) (l : List α)
    (init : β) (h0 : P init)
    (hstep : ∀ acc x, x ∈ l → P acc → P (f acc x)) :
    P (l.foldl f init) := by
  induction l generalizing init with
  | nil => exact h0
  | cons a t ih =>
      exact ih (f init a) (hstep init a (List.mem_cons_self a t) h0)
        (fun acc x hx hacc => hstep acc x (List.mem_cons_of_mem a hx) hacc)

theorem csl_le (a b : List Char) :
    ∀ i j, csl a b i j ≤ i + 1 ∧ csl a b i j ≤ j + 1 := by
  intro i
  induction i with
  | zero =>
      intro j
      simp only [csl]
      split <;> omega
  | succ n ih =>
      intro j
      cases j with
      | zero => simp only [csl]; split <;> omega
      | succ p =>
          simp only [csl]
          split
          · have := ih p
            omega
          · omega

theorem flm_bounds (a b : List Char) :
    (flm a b).1 + (flm a b).2.2 ≤ a.length ∧
    (flm a b).2.1 + (flm a b).2.2 ≤ b.length := by
  unfold flm
  apply foldl_inv (fun best : Nat × Nat × Nat =>
    best.1 + best.2.2 ≤ a.length ∧ best.2.1 + best.2.2 ≤ b.length)
  · exact ⟨by simp, by simp⟩
  · intro acc i hi hacc
    refine foldl_inv (fun best : Nat × Nat × Nat =>
      best.1 + best.2.2 ≤ a.length ∧ best.2.1 + best.2.2 ≤ b.length)
      _ _ _ hacc ?_
    intro acc2 j hj hacc2
    have hi' : i < a.length := List.mem_range.mp hi
    have hj' : j < b.length := List.mem_range.mp hj
    have hk := csl_le a b i j
    simp only [flmUpd]
    split
    · dsimp only
      omega
    · exact hacc2

theorem matchesTotalF_le (fuel : Nat) : ∀ a b : List Char,
    matchesTotalF fuel a b ≤ a.length ∧ matchesTotalF fuel a b ≤ b.length := by
  induction fuel with
  | zero => intro a b; exact ⟨Nat.zero_le _, Nat.zero_le _⟩
  | succ n ih =>
      intro a b
      simp only [matchesTotalF]
      split
      · exact ⟨Nat.zero_le _, Nat.zero_le _⟩
      · obtain ⟨hL1, hL2⟩ := ih (a.take (flm a b).1) (b.take (flm a b).2.1)
        obtain ⟨hR1, hR2⟩ :=
          ih (a.drop ((flm a b).1 + (flm a b).2.2))
            (b.drop ((flm a b).2.1 + (flm a b).2.2))
        obtain ⟨hb1, hb2⟩ := flm_bounds a b
        rw [List.length_take] at hL1 hL2
        rw [List.length_drop] at hR1 hR2
        constructor <;> omega

theorem similarity_nonneg (s1 s2 : String) : 0 ≤ similarity s1 s2 := by
  simp only [similarity]
  split
  · norm_num
  · positivity

theorem similarity_le_one (s1 s2 : String) : similarity s1 s2 ≤ 1 := by
  simp only [similarity]
  split
  · exact le_refl 1
  · rename_i h
    have hM := matchesTotalF_le s1.data.length s1.data s2.data
    have hpos : (0 : ℚ) < (s1.data.length : ℚ) + (s2.data.length : ℚ) := by
      have : 0 < s1.data.length + s2.data.length := Nat.pos_of_ne_zero h
      exact_mod_cast this
    rw [div_le_one hpos]
    have : 2 * matchesTotal s1.data s2.data ≤
        s1.data.length + s2.data.length := by
      unfold matchesTotal
      omega
    exact_mod_cast this

/-! ## Loop invariant of `find_match` (claims C1, C10) -/

/-- A row passes both similarity gates of `find_match`. -/
def passes (an tn : String) (r : Song) : Prop :=
  SIMILARITY_THRESHOLD ≤ similarity an r.artist_norm ∧
  SIMILARITY_THRESHOLD ≤ similarity tn r.title_norm

instance (an tn : String) (r : Song) : Decidable (passes an tn r) := by
  unfold passes; infer_instance

/-- The combined score `find_match` computes for a surviving row. -/
def rscore (an tn : String) (r : Song) : ℚ :=
  similarity an r.artist_norm * (3/10) + similarity tn r.title_norm * (7/10)

/-- The result dict built from a row and a score. -/
def mkResult (r : Song) (s : ℚ) : MatchResult := ⟨r.path, r.artist, r.title, s⟩

/-- Invariant of the `find_match` fold after processing the rows `l`:
either nothing survived and the accumulator is still `(none, 0)`, or the
accumulator holds the first row attaining the running maximum score. -/
def FMInv (an tn : String) (l : List Song) (acc : Option MatchResult × ℚ) :
    Prop :=
  (acc = (none, 0) ∧ ∀ r ∈ l, ¬ passes an tn r) ∨
  (∃ l1 b l2, l = l1 ++ b :: l2 ∧ passes an tn b ∧
    acc = (some (mkResult b (rscore an tn b)), rscore an tn b) ∧
    (∀ r ∈ l1, passes an tn r → rscore an tn r < rscore an tn b) ∧
    (∀ r ∈ l, passes an tn r → rscore an tn r ≤ rscore an tn b))

theorem fmStep_not_passes (an tn : String) (acc : Option MatchResult × ℚ)
    (x : Song) (h : ¬ passes an tn x) : fmStep an tn acc x = acc := by
  simp only [fmStep]
  by_cases h1 : similarity an x.artist_norm < SIMILARITY_THRESHOLD
  · rw [if_pos h1]
  · rw [if_neg h1]
    have h2 : similarity tn x.title_norm < SIMILARITY_THRESHOLD := by
      rcases lt_or_le (similarity tn x.title_norm) SIMILARITY_THRESHOLD with
        h2 | h2
      · exact h2
      · exact absurd ⟨le_of_not_lt h1, h2⟩ h
    rw [if_pos h2]

theorem fmStep_passes (an tn : String) (acc : Option MatchResult × ℚ)
    (x : Song) (h : passes an tn x) :
    fmStep an tn acc x =
      if acc.2 < rscore an tn x then
        (some (mkResult x (rscore an tn x)), rscore an tn x)
      else acc := by
  simp only [fmStep, mkResult, rscore]
  rw [if_neg (not_lt.mpr h.1), if_neg (not_lt.mpr h.2)]

theorem rscore_ge_threshold (an tn : String) (x : Song)
    (h : passes an tn x) : SIMILARITY_THRESHOLD ≤ rscore an tn x := by
  obtain ⟨h1, h2⟩ := h
  unfold rscore SIMILARITY_THRESHOLD at *
  linarith

theorem rscore_le_one (an tn : String) (x : Song) : rscore an tn x ≤ 1 := by
  have h1 := similarity_le_one an x.artist_norm
  have h2 := similarity_le_one tn x.title_norm
  unfold rscore
  linarith

theorem fmStep_preserve (an tn : String) (l : List Song)
    (acc : Option MatchResult × ℚ) (x : Song) (h : FMInv an tn l acc) :
    FMInv an tn (l ++ [x]) (fmStep an tn acc x) := by
  by_cases hx : passes an tn x
  · rw [fmStep_passes an tn acc x hx]
    rcases h with ⟨hacc, hnone⟩ | ⟨l1, b, l2, hsplit, hb, hacc, hlt, hle⟩
    · rw [hacc]
      dsimp only
      rw [if_pos (by
        have := rscore_ge_threshold an tn x hx
        unfold SIMILARITY_THRESHOLD at this
        linarith)]
      right
      refine ⟨l, x, [], by simp, hx, rfl, ?_, ?_⟩
      · exact fun r hr hp => absurd hp (hnone r hr)
      · intro r hr hp
        rcases List.mem_append.mp hr with hr | hr
        · exact absurd hp (hnone r hr)
        · rw [List.mem_singleton] at hr; subst hr; exact le_refl _
    · rw [hacc]
      dsimp only
      by_cases hcmp : rscore an tn b < rscore an tn x
      · rw [if_pos hcmp]
        right
        refine ⟨l, x, [], by simp, hx, rfl, ?_, ?_⟩
        · intro r hr hp
          exact lt_of_le_of_lt (hle r hr hp) hcmp
        · intro r hr hp
          rcases List.mem_append.mp hr with hr | hr
          · exact le_of_lt (lt_of_le_of_lt (hle r hr hp) hcmp)
          · rw [List.mem_singleton] at hr; subst hr; exact le_refl _
      · rw [if_neg hcmp]
        right
        refine ⟨l1, b, l2 ++ [x], by rw [hsplit]; simp, hb, rfl, hlt, ?_⟩
        intro r hr hp
        rcases List.mem_append.mp hr with hr | hr
        · exact hle r hr hp
        · rw [List.mem_singleton] at hr; subst hr; exact le_of_not_lt hcmp
  · rw [fmStep_not_passes an tn acc x hx]
    rcases h with ⟨hacc, hnone⟩ | ⟨l1, b, l2, hsplit, hb, hacc, hlt, hle⟩
    · left
      refine ⟨hacc, fun r hr => ?_⟩
      rcases List.mem_append.mp hr with hr | hr
      · exact hnone r hr
      · rw [List.mem_singleton] at hr; subst hr; exact hx
    · right
      refine ⟨l1, b, l2 ++ [x], by rw [hsplit]; simp, hb, hacc, hlt, ?_⟩
      intro r hr hp
      rcases List.mem_append.mp hr with hr | hr
      · exact hle r hr hp
      · rw [List.mem_singleton] at hr; subst hr; exact absurd hp hx

theorem fm_fold_inv (an tn : String) (l : List Song) :
    FMInv an tn l
      (l.foldl (fmStep an tn) ((none : Option MatchResult), (0 : ℚ))) := by
  induction l using List.reverseRecOn with
  | nil => left; exact ⟨rfl, by simp⟩
  | append_singleton l x ih =>
      rw [List.foldl_append]
      exact fmStep_preserve an tn l _ x ih

/-- `find_match` returns `none` exactly when no row passes both gates. -/
theorem find_match_none_iff (db : List Song) (artist title : String) :
    find_match db artist title = none ↔
      ∀ r ∈ db, ¬ passes (normalize_text artist) (normalize_text title) r := by
  have hinv := fm_fold_inv (normalize_text artist) (normalize_text title) db
  constructor
  · intro h r hr
    rcases hinv with ⟨_, hnone⟩ | ⟨l1, b, l2, hsplit, hb, hacc, _, _⟩
    · exact hnone r hr
    · exfalso
      unfold find_match at h
      rw [hacc] at h
      simp at h
  · intro hall
    rcases hinv with ⟨hacc, _⟩ | ⟨l1, b, l2, hsplit, hb, hacc, _, _⟩
    · unfold find_match
      rw [hacc]
    · exact absurd hb (hall b (by rw [hsplit]; simp))

/-- A `find_match` result is the first surviving row attaining the
maximal combined score. -/
theorem find_match_some_spec (db : List Song) (artist title : String)
    (m : MatchResult) (hm : find_match db artist title = some m) :
    ∃ l1 b l2, db = l1 ++ b :: l2 ∧
      passes (normalize_text artist) (normalize_text title) b ∧
      m = mkResult b
        (rscore (normalize_text artist) (normalize_text title) b) ∧
      (∀ r ∈ db, passes (normalize_text artist) (normalize_text title) r →
        rscore (normalize_text artist) (normalize_text title) r ≤
          m.score) ∧
      (∀ r ∈ l1, passes (normalize_text artist) (normalize_text title) r →
        rscore (normalize_text artist) (normalize_text title) r <
          m.score) := by
  have hinv := fm_fold_inv (normalize_text artist) (normalize_text title) db
  rcases hinv with ⟨hacc, _⟩ | ⟨l1, b, l2, hsplit, hb, hacc, hlt, hle⟩
  · unfold find_match at hm
    rw [hacc] at hm
    simp at hm
  · unfold find_match at hm
    rw [hacc] at hm
    simp only [Option.some.injEq] at hm
    subst hm
    exact ⟨l1, b, l2, hsplit, hb, rfl, fun r hr hp => hle r hr hp,
      fun r hr hp => hlt r hr hp⟩

/-- C1: `find_match` normalizes both inputs, rejects every row with artist
similarity < 0.70 or title similarity < 0.70, scores the surviving rows as
`0.3 * artist_sim + 0.7 * title_sim`, and returns the highest-scoring
surviving row, or `none` when no row survives; on equal scores the
first-encountered row wins (strict `>` against the running best: every
earlier surviving row scores strictly below the returned one). -/
theorem c1_find_match_spec (db : List Song) (artist title : String) :
    (find_match db artist title = none ↔
      ∀ r ∈ db, ¬ passes (normalize_text artist) (normalize_text title) r) ∧
    (∀ m, find_match db artist title = some m →
      ∃ l1 b l2, db = l1 ++ b :: l2 ∧
        passes (normalize_text artist) (normalize_text title) b ∧
        m = mkResult b
          (rscore (normalize_text artist) (normalize_text title) b) ∧
        (∀ r ∈ db, passes (normalize_text artist) (normalize_text title) r →
          rscore (normalize_text artist) (normalize_text title) r ≤
            m.score) ∧
        (∀ r ∈ l1, passes (normalize_text artist) (normalize_text title) r →
          rscore (normalize_text artist) (normalize_text title) r <
            m.score)) :=
  ⟨find_match_none_iff db artist title,
    fun m hm => find_match_some_spec db artist title m hm⟩

/-! ## Loop invariant of `find_match_by_title` (claims C2, C10) -/

/-- A row passes the single title gate of `find_match_by_title`. -/
def tpasses (tn : String) (threshold : ℚ) (r : Song) : Prop :=
  threshold ≤ similarity tn r.title_norm

/-- Invariant of the `find_match_by_title` fold. -/
def FTInv (tn : String) (threshold : ℚ) (l : List Song)
    (acc : Option MatchResult × ℚ) : Prop :=
  (acc = (none, 0) ∧ ∀ r ∈ l, ¬ tpasses tn threshold r) ∨
  (∃ l1 b l2, l = l1 ++ b :: l2 ∧ tpasses tn threshold b ∧
    acc = (some (mkResult b (similarity tn b.title_norm)),
      similarity tn b.title_norm) ∧
    (∀ r ∈ l1, tpasses tn threshold r →
      similarity tn r.title_norm < similarity tn b.title_norm) ∧
    (∀ r ∈ l, tpasses tn threshold r →
      similarity tn r.title_norm ≤ similarity tn b.title_norm))

theorem ftStep_not_passes (tn : String) (threshold : ℚ)
    (acc : Option MatchResult × ℚ) (x : Song)
    (h : ¬ tpasses tn threshold x) : ftStep tn threshold acc x = acc := by
  simp only [ftStep]
  rw [if_pos (lt_of_not_le h)]

theorem ftStep_passes (tn : String) (threshold : ℚ)
    (acc : Option MatchResult × ℚ) (x : Song) (h : tpasses tn threshold x) :
    ftStep tn threshold acc x =
      if acc.2 < similarity tn x.title_norm then
        (some (mkResult x (similarity tn x.title_norm)),
          similarity tn x.title_norm)
      else acc := by
  simp only [ftStep, mkResult]
  rw [if_neg (not_lt.mpr h)]

theorem ftStep_preserve (tn : String) (threshold : ℚ) (hθ : 0 < threshold)
    (l : List Song) (acc : Option MatchResult × ℚ) (x : Song)
    (h : FTInv tn threshold l acc) :
    FTInv tn threshold (l ++ [x]) (ftStep tn threshold acc x) := by
  by_cases hx : tpasses tn threshold x
  · rw [ftStep_passes tn threshold acc x hx]
    rcases h with ⟨hacc, hnone⟩ | ⟨l1, b, l2, hsplit, hb, hacc, hlt, hle⟩
    · rw [hacc]
      dsimp only
      rw [if_pos (lt_of_lt_of_le hθ hx)]
      right
      refine ⟨l, x, [], by simp, hx, rfl, ?_, ?_⟩
      · exact fun r hr hp => absurd hp (hnone r hr)
      · intro r hr hp
        rcases List.mem_append.mp hr with hr | hr
        · exact absurd hp (hnone r hr)
        · rw [List.mem_singleton] at hr; subst hr; exact le_refl _
    · rw [hacc]
      dsimp only
      by_cases hcmp : similarity tn b.title_norm < similarity tn x.title_norm
      · rw [if_pos hcmp]
        right
        refine ⟨l, x, [], by simp, hx, rfl, ?_, ?_⟩
        · intro r hr hp
          exact lt_of_le_of_lt (hle r hr hp) hcmp
        · intro r hr hp
          rcases List.mem_append.mp hr with hr | hr
          · exact le_of_lt (lt_of_le_of_lt (hle r hr hp) hcmp)
          · rw [List.mem_singleton] at hr; subst hr; exact le_refl _
      · rw [if_neg hcmp]
        right
        refine ⟨l1, b, l2 ++ [x], by rw [hsplit]; simp, hb, rfl, hlt, ?_⟩
        intro r hr hp
        rcases List.mem_append.mp hr with hr | hr
        · exact hle r hr hp
        · rw [List.mem_singleton] at hr; subst hr; exact le_of_not_lt hcmp
  · rw [ftStep_not_passes tn threshold acc x hx]
    rcases h with ⟨hacc, hnone⟩ | ⟨l1, b, l2, hsplit, hb, hacc, hlt, hle⟩
    · left
      refine ⟨hacc, fun r hr => ?_⟩
      rcases List.mem_append.mp hr with hr | hr
      · exact hnone r hr
      · rw [List.mem_singleton] at hr; subst hr; exact hx
    · right
      refine ⟨l1, b, l2 ++ [x], by rw [hsplit]; simp, hb, hacc, hlt, ?_⟩
      intro r hr hp
      rcases List.mem_append.mp hr with hr | hr
      · exact hle r hr hp
      · rw [List.mem_singleton] at hr; subst hr; exact absurd hp hx

theorem ft_fold_inv (tn : String) (threshold : ℚ) (hθ : 0 < threshold)
    (l : List Song) :
    FTInv tn threshold l
      (l.foldl (ftStep tn threshold)
        ((none : Option MatchResult), (0 : ℚ))) := by
  induction l using List.reverseRecOn with
  | nil => left; exact ⟨rfl, by simp⟩
  | append_singleton l x ih =>
      rw [List.foldl_append]
      exact ftStep_preserve tn threshold hθ l _ x ih

/-- A `find_match_by_title` result (positive threshold) is the first row
attaining the maximal title similarity at or above the threshold. -/
theorem find_match_by_title_some_spec (db : List Song) (title : String)
    (threshold : ℚ) (hθ : 0 < threshold) (m : MatchResult)
    (hm : find_match_by_title db title threshold = some m) :
    ∃ l1 b l2, db = l1 ++ b :: l2 ∧
      threshold ≤ similarity (normalize_text title) b.title_norm ∧
      m = mkResult b (similarity (normalize_text title) b.title_norm) ∧
      (∀ r ∈ db, threshold ≤ similarity (normalize_text title) r.title_norm →
        similarity (normalize_text title) r.title_norm ≤ m.score) ∧
      (∀ r ∈ l1, threshold ≤ similarity (normalize_text title) r.title_norm →
        similarity (normalize_text title) r.title_norm < m.score) := by
  have hinv := ft_fold_inv (normalize_text title) threshold hθ db
  rcases hinv with ⟨hacc, _⟩ | ⟨l1, b, l2, hsplit, hb, hacc, hlt, hle⟩
  · unfold find_match_by_title at hm
    rw [hacc] at hm
    simp at hm
  · unfold find_match_by_title at hm
    rw [hacc] at hm
    simp only [Option.some.injEq] at hm
    subst hm
    exact ⟨l1, b, l2, hsplit, hb, rfl, fun r hr hp => hle r hr hp,
      fun r hr hp => hlt r hr hp⟩

/-- `find_match_by_title` (positive threshold) returns `none` exactly when
every row's title similarity is below the threshold. -/
theorem find_match_by_title_none_iff (db : List Song) (title : String)
    (threshold : ℚ) (hθ : 0 < threshold) :
    find_match_by_title db title threshold = none ↔
      ∀ r ∈ db, similarity (normalize_text title) r.title_norm < threshold := by
  have hinv := ft_fold_inv (normalize_text title) threshold hθ db
  constructor
  · intro h r hr
    rcases hinv with ⟨_, hnone⟩ | ⟨l1, b, l2, hsplit, hb, hacc, _, _⟩
    · exact lt_of_not_le (hnone r hr)
    · exfalso
      unfold find_match_by_title at h
      rw [hacc] at h
      simp at h
  · intro hall
    rcases hinv with ⟨hacc, _⟩ | ⟨l1, b, l2, hsplit, hb, hacc, _, _⟩
    · unfold find_match_by_title
      rw [hacc]
    · exact absurd hb (not_le.mpr (hall b (by rw [hsplit]; simp)))

/-- C2: `find_match_by_title` at the default threshold 0.80 normalizes
only the title, rejects every row with title similarity < 0.80, and
returns the row with the highest title similarity or `none`; in
particular a row whose title similarity lies in [0.70, 0.80) passes
`find_match`'s title gate (0.70) but is never the row returned by
title-only mode. -/
theorem c2_find_match_by_title_spec (db : List Song) (title : String) :
    (find_match_by_title db title (8/10) = none ↔
      ∀ r ∈ db,
        similarity (normalize_text title) r.title_norm < 8/10) ∧
    (∀ m, find_match_by_title db title (8/10) = some m →
      ∃ l1 b l2, db = l1 ++ b :: l2 ∧
        (8/10 : ℚ) ≤ similarity (normalize_text title) b.title_norm ∧
        m = mkResult b (similarity (normalize_text title) b.title_norm) ∧
        (∀ r ∈ db, (8/10 : ℚ) ≤ similarity (normalize_text title) r.title_norm →
          similarity (normalize_text title) r.title_norm ≤ m.score) ∧
        (∀ r ∈ l1, (8/10 : ℚ) ≤ similarity (normalize_text title) r.title_norm →
          similarity (normalize_text title) r.title_norm < m.score)) ∧
    (∀ r ∈ db,
      SIMILARITY_THRESHOLD ≤ similarity (normalize_text title) r.title_norm →
      similarity (normalize_text title) r.title_norm < 8/10 →
      ∀ m, find_match_by_title db title (8/10) = some m →
        m ≠ mkResult r (similarity (normalize_text title) r.title_norm)) := by
  refine ⟨find_match_by_title_none_iff db title (8/10) (by norm_num),
    fun m hm =>
      find_match_by_title_some_spec db title (8/10) (by norm_num) m hm, ?_⟩
  intro r hr _hge hlt8 m hm heq
  obtain ⟨l1, b, l2, _, hb, hmeq, _, _⟩ :=
    find_match_by_title_some_spec db title (8/10) (by norm_num) m hm
  have hscore : m.score = similarity (normalize_text title) b.title_norm := by
    rw [hmeq]; rfl
  have hscore2 : m.score = similarity (normalize_text title) r.title_norm := by
    rw [heq]; rfl
  rw [hscore] at hscore2
  rw [hscore2] at hb
  exact absurd (lt_of_le_of_lt hb hlt8) (lt_irrefl _)

/-- C10: whenever `find_match` returns a result its score lies in
[0.70, 1], and independently, whenever `find_match_by_title` at the
default threshold 0.80 returns a result its score lies in [0.80, 1]; a
returned score below the mode's gate is impossible.  The two statements
are separate: each holds on any index state and query where that mode
succeeds, regardless of the other mode. -/
theorem c10_score_bounds :
    (∀ (db : List Song) (a t : String) (m : MatchResult),
      find_match db a t = some m →
        (7/10 : ℚ) ≤ m.score ∧ m.score ≤ 1) ∧
    (∀ (db : List Song) (t : String) (m : MatchResult),
      find_match_by_title db t (8/10) = some m →
        (8/10 : ℚ) ≤ m.score ∧ m.score ≤ 1) := by
  constructor
  · intro db a t m h1
    obtain ⟨l1, b, l2, _, hb, hmeq, _, _⟩ := find_match_some_spec db a t m h1
    constructor
    · rw [hmeq]
      exact rscore_ge_threshold _ _ b hb
    · rw [hmeq]
      exact rscore_le_one _ _ b
  · intro db t m h2
    obtain ⟨l1, b, l2, _, hb, hmeq, _, _⟩ :=
      find_match_by_title_some_spec db t (8/10) (by norm_num) m h2
    constructor
    · rw [hmeq]
      exact hb
    · rw [hmeq]
      exact similarity_le_one _ _

/-! ## `is_good_match` (claim C3) -/

/-- C3: the verifier normalizes all four strings, computes both
similarities on the normalized forms, and accepts exactly when
`(artist_sim >= 0.5 and title_sim >= 0.5) or title_sim >= 0.8`, always
returning the decision together with the two similarity scores (it is a
total function: the decision is surfaced as a boolean, never an
exception). -/
theorem c3_is_good_match_spec
    (req_artist req_title match_artist match_title : String) :
    ((is_good_match req_artist req_title match_artist match_title).1 = true ↔
      ((ARTIST_THRESHOLD ≤
          similarity (normalize_text req_artist) (normalize_text match_artist) ∧
        TITLE_THRESHOLD ≤
          similarity (normalize_text req_title) (normalize_text match_title)) ∨
       TITLE_HIGH_THRESHOLD ≤
          similarity (normalize_text req_title) (normalize_text match_title))) ∧
    (is_good_match req_artist req_title match_artist match_title).2.1 =
      similarity (normalize_text req_artist) (normalize_text match_artist) ∧
    (is_good_match req_artist req_title match_artist match_title).2.2 =
      similarity (normalize_text req_title) (normalize_text match_title) := by
  simp only [is_good_match, ge_iff_le]
  split_ifs with h1 h2
  · exact ⟨iff_of_true rfl (Or.inl h1), rfl, rfl⟩
  · exact ⟨iff_of_true rfl (Or.inr h2), rfl, rfl⟩
  · exact ⟨iff_of_false (by simp) (by tauto), rfl, rfl⟩

/-! ## The normalized columns are a cache (claim C4) -/

/-- The invariant of claim C4: the stored normalized fields are exactly
the normalizations of the display fields. -/
def RowInv (r : Song) : Prop :=
  r.artist_norm = normalize_text r.artist ∧
  r.title_norm = normalize_text r.title

theorem add_song_inv (d : List Song) (hd : ∀ r ∈ d, RowInv r)
    (p a t : String) (mt : ℚ) : ∀ r ∈ add_song d p a t mt, RowInv r := by
  intro r hr
  unfold add_song at hr
  rcases List.mem_append.mp hr with hr | hr
  · exact hd r (List.mem_filter.mp hr).1
  · rw [List.mem_singleton] at hr
    subst hr
    exact ⟨rfl, rfl⟩

/-- C4: the write paths (`add_song` upserts, `remove_missing` deletes,
and full `scan_music_library` reconciliations) preserve the invariant
`artist_norm == normalize(artist)` and `title_norm == normalize(title)`:
the normalized columns are always recomputed from the display strings at
write time. -/
theorem c4_norm_cache_invariant (db : List Song) (hdb : ∀ r ∈ db, RowInv r) :
    (∀ p a t mt, ∀ r ∈ add_song db p a t mt, RowInv r) ∧
    (∀ ex, ∀ r ∈ remove_missing db ex, RowInv r) ∧
    (∀ fs force, ∀ r ∈ (scan_music_library db fs force).1, RowInv r) := by
  refine ⟨add_song_inv db hdb, ?_, ?_⟩
  · intro ex r hr
    exact hdb r (List.mem_filter.mp hr).1
  · intro fs force r hr
    simp only [scan_music_library] at hr
    have hfold := foldl_inv (fun acc : List Song × Nat => ∀ r ∈ acc.1, RowInv r)
      (scanStep
        (lookupMtime
          (remove_missing db ((enum_audio fs).map (fun f => f.path)))) force)
      (enum_audio fs)
      (remove_missing db ((enum_audio fs).map (fun f => f.path)), 0)
      (fun r hr => hdb r (List.mem_filter.mp hr).1)
      ?_
    · exact hfold r hr
    · intro acc x _hx hacc r hr
      unfold scanStep at hr
      split at hr
      · exact hacc r hr
      · exact add_song_inv acc.1 hacc _ _ _ _ r hr

/-! ## The bracket-stripping regular expression (claim C7) -/

/-- C7 counterexample: "(Deluxe)" is a non-keyword segment — alone it is
kept — yet when the keyword segment "(Live)" follows it in the same
string the lazy pattern matches from the first opening bracket to the
close after "live", removing both segments, so the non-keyword segment is
NOT kept. -/
theorem c7_counterexample :
    normalize_text "Song (Deluxe)" = "song deluxe" ∧
    normalize_text "Song (Deluxe)" ≠ normalize_text "Song" ∧
    normalize_text "Song (Deluxe) (Live)" = "song" := by
  refine ⟨by decide, by decide, by decide⟩

/-- C7 (amended): keyword-bearing bracketed segments are removed
(`normalize("Song (Radio Edit)") = normalize("Song")`), a non-keyword
segment with no later keyword segment is kept
(`normalize("Song (Deluxe)") ≠ normalize("Song")`, and
`normalize("Song (Live) (Deluxe)")` keeps "deluxe"), but a non-keyword
segment is removed together with a keyword-bearing segment that appears
later in the string: the lazy match spans from the first opening bracket
to the first closing bracket at or after a keyword
(`normalize("Song (Deluxe) (Live)") = "song"`). -/
theorem c7_amended_bracket_stripping :
    normalize_text "Song (Radio Edit)" = normalize_text "Song" ∧
    normalize_text "Song (Deluxe)" ≠ normalize_text "Song" ∧
    normalize_text "Song (Live) (Deluxe)" = "song deluxe" ∧
    normalize_text "Song (Deluxe) (Live)" = "song" ∧
    normalize_text "Song [Bonus Track]" = "song" := by
  refine ⟨by decide, by decide, by decide, by decide, by decide⟩

/-! ## Reconciliation: path uniqueness, lookup, and the scan fold -/

/-- The UNIQUE constraint on the `path` column. -/
def PathsNodup (db : List Song) : Prop :=
  (db.map (fun r => r.path)).Nodup

theorem add_song_nodup (d : List Song) (hd : PathsNodup d) (p a t : String)
    (mt : ℚ) : PathsNodup (add_song d p a t mt) := by
  unfold PathsNodup add_song at *
  rw [List.map_append, List.nodup_append]
  refine ⟨hd.sublist (List.Sublist.map _ (List.filter_sublist d)), by simp, ?_⟩
  intro q hq
  obtain ⟨r, hr, hrq⟩ := List.mem_map.mp hq
  have hne := List.of_mem_filter hr
  simp only [decide_eq_true_eq] at hne
  simp only [List.map_cons, List.map_nil, List.mem_singleton]
  intro hqp
  exact hne (by rw [hrq, hqp])

theorem lookupMtime_append (db : List Song) (x : Song) (p : String) :
    lookupMtime (db ++ [x]) p =
      if x.path = p then some x.mtime else lookupMtime db p := by
  unfold lookupMtime
  rw [List.foldl_append]
  rfl

theorem lookupMtime_some (db : List Song) (p : String) (m : ℚ)
    (h : lookupMtime db p = some m) : ∃ r ∈ db, r.path = p ∧ r.mtime = m := by
  induction db using List.reverseRecOn with
  | nil => cases h
  | append_singleton d x ih =>
      rw [lookupMtime_append] at h
      split at h
      · rename_i hx
        refine ⟨x, by simp, hx, by injection h⟩
      · obtain ⟨r, hr, hrp, hrm⟩ := ih h
        exact ⟨r, by simp [hr], hrp, hrm⟩

theorem lookupMtime_of_mem_nodup (db : List Song) (hdb : PathsNodup db)
    (r : Song) (hr : r ∈ db) : lookupMtime db r.path = some r.mtime := by
  induction db using List.reverseRecOn with
  | nil => cases hr
  | append_singleton d x ih =>
      unfold PathsNodup at hdb
      rw [List.map_append, List.nodup_append] at hdb
      obtain ⟨hd1, _, hdisj⟩ := hdb
      rw [lookupMtime_append]
      rcases List.mem_append.mp hr with hr | hr
      · rw [if_neg ?_]
        · exact ih hd1 hr
        · intro hxr
          refine hdisj (List.mem_map.mpr ⟨r, hr, hxr.symm⟩) ?_
          simp
      · rw [List.mem_singleton] at hr
        subst hr
        rw [if_pos rfl]

theorem shouldSkip_eq_true (idx : String → Option ℚ) (force : Bool)
    (f : FSFile) :
    shouldSkip idx force f = true ↔
      force = false ∧ ∃ m, idx f.path = some m ∧ f.mtime ≤ m := by
  unfold shouldSkip
  cases hmatch : idx f.path <;> cases force <;> simp [hmatch]

/-- The full invariant of the add/update fold of `scan_music_library`,
run over a snapshot `idx` of the mtimes of `db1` (the dict is built once,
before the loop): unique paths are preserved, every final row comes from
`db1` or from an enumerated file, every enumerated file ends up covered
by a row at least as fresh, and rows of `db1` whose path is not touched
survive. -/
theorem scan_fold_spec (idx : String → Option ℚ) (force : Bool)
    (db1 : List Song) (fl : List FSFile) (hnodup : PathsNodup db1)
    (hflnodup : (fl.map (fun f => f.path)).Nodup)
    (hidx : ∀ p, idx p = lookupMtime db1 p) :
    PathsNodup (fl.foldl (scanStep idx force) (db1, 0)).1 ∧
    (∀ r ∈ (fl.foldl (scanStep idx force) (db1, 0)).1,
      r ∈ db1 ∨ ∃ f ∈ fl, r.path = f.path) ∧
    (∀ f ∈ fl, ∃ r ∈ (fl.foldl (scanStep idx force) (db1, 0)).1,
      r.path = f.path ∧ f.mtime ≤ r.mtime) ∧
    (∀ r ∈ db1, r.path ∉ fl.map (fun f => f.path) →
      r ∈ (fl.foldl (scanStep idx force) (db1, 0)).1) := by
  induction fl using List.reverseRecOn with
  | nil =>
      refine ⟨hnodup, fun r hr => Or.inl hr, by simp, fun r hr _ => hr⟩
  | append_singleton fl' g ih =>
      rw [List.map_append, List.nodup_append] at hflnodup
      obtain ⟨hfl1, _, hdisj⟩ := hflnodup
      have hgnotin : g.path ∉ fl'.map (fun f => f.path) := by
        intro hmem
        exact hdisj hmem (by simp)
      obtain ⟨ih1, ih2, ih3, ih4⟩ := ih hfl1
      rw [List.foldl_append]
      set acc := fl'.foldl (scanStep idx force) (db1, 0) with hacc
      simp only [List.foldl_cons, List.foldl_nil]
      unfold scanStep
      split
      · -- skipped: the accumulator is unchanged
        rename_i hskip
        refine ⟨ih1, ?_, ?_, ?_⟩
        · intro r hr
          rcases ih2 r hr with hr2 | ⟨f, hf, hfp⟩
          · exact Or.inl hr2
          · exact Or.inr ⟨f, by simp [hf], hfp⟩
        · intro f hf
          rcases List.mem_append.mp hf with hf | hf
          · obtain ⟨r, hr, hrp, hrm⟩ := ih3 f hf
            exact ⟨r, hr, hrp, hrm⟩
          · rw [List.mem_singleton] at hf
            subst hf
            obtain ⟨_, m, hidxm, hm⟩ := (shouldSkip_eq_true idx force f).mp hskip
            rw [hidx f.path] at hidxm
            obtain ⟨r0, hr0, hr0p, hr0m⟩ := lookupMtime_some db1 f.path m hidxm
            refine ⟨r0, ih4 r0 hr0 ?_, hr0p, by rw [hr0m]; exact hm⟩
            rw [hr0p]
            exact hgnotin
        · intro r hr hnot
          refine ih4 r hr ?_
          intro hmem
          exact hnot (by rw [List.map_append]; exact List.mem_append.mpr (Or.inl hmem))
      · -- added: `add_song` replaces any row keyed by this path
        refine ⟨add_song_nodup acc.1 ih1 _ _ _ _, ?_, ?_, ?_⟩
        · intro r hr
          unfold add_song at hr
          rcases List.mem_append.mp hr with hr | hr
          · rcases ih2 r (List.mem_filter.mp hr).1 with hr2 | ⟨f, hf, hfp⟩
            · exact Or.inl hr2
            · exact Or.inr ⟨f, by simp [hf], hfp⟩
          · rw [List.mem_singleton] at hr
            subst hr
            exact Or.inr ⟨g, by simp, rfl⟩
        · intro f hf
          rcases List.mem_append.mp hf with hf | hf
          · obtain ⟨r, hr, hrp, hrm⟩ := ih3 f hf
            have hfg : f.path ≠ g.path := by
              intro heq
              exact hdisj (List.mem_map.mpr ⟨f, hf, heq⟩) (by simp)
            refine ⟨r, ?_, hrp, hrm⟩
            unfold add_song
            refine List.mem_append.mpr (Or.inl (List.mem_filter.mpr ⟨hr, ?_⟩))
            simp only [decide_eq_true_eq]
            rw [hrp]
            exact hfg
          · rw [List.mem_singleton] at hf
            subst hf
            refine ⟨⟨f.path, f.artist, normalize_text f.artist, f.title,
              normalize_text f.title, f.mtime⟩, ?_, rfl, le_refl _⟩
            unfold add_song
            exact List.mem_append.mpr (Or.inr (by simp))
        · intro r hr hnot
          have hnot' : r.path ∉ fl'.map (fun f => f.path) := by
            intro hmem
            exact hnot (by rw [List.map_append]; exact List.mem_append.mpr (Or.inl hmem))
          have hrg : r.path ≠ g.path := by
            intro heq
            refine hnot ?_
            rw [List.map_append]
            refine List.mem_append.mpr (Or.inr ?_)
            simp [heq]
          unfold add_song
          refine List.mem_append.mpr (Or.inl (List.mem_filter.mpr
            ⟨ih4 r hr hnot', ?_⟩))
          simp only [decide_eq_true_eq]
          exact hrg

/-- The scan fold invariant transported to `scan_music_library` itself. -/
theorem scan_spec (db : List Song) (fs : List FSFile) (force : Bool)
    (hdb : PathsNodup db) (hfs : (fs.map (fun f => f.path)).Nodup) :
    PathsNodup (scan_music_library db fs force).1 ∧
    (∀ r ∈ (scan_music_library db fs force).1,
      r.path ∈ (enum_audio fs).map (fun f => f.path)) ∧
    (∀ f ∈ enum_audio fs, ∃ r ∈ (scan_music_library db fs force).1,
      r.path = f.path ∧ f.mtime ≤ r.mtime) := by
  have hnodup1 : PathsNodup
      (remove_missing db ((enum_audio fs).map (fun f => f.path))) :=
    hdb.sublist (List.Sublist.map _ (List.filter_sublist db))
  have hflnodup : ((enum_audio fs).map (fun f => f.path)).Nodup :=
    hfs.sublist (List.Sublist.map _ (List.filter_sublist fs))
  obtain ⟨h1, h2, h3, _⟩ := scan_fold_spec
    (lookupMtime (remove_missing db ((enum_audio fs).map (fun f => f.path))))
    force (remove_missing db ((enum_audio fs).map (fun f => f.path)))
    (enum_audio fs) hnodup1 hflnodup (fun p => rfl)
  simp only [scan_music_library]
  refine ⟨h1, ?_, h3⟩
  intro r hr
  rcases h2 r hr with hr2 | ⟨f, hf, hfp⟩
  · have := List.of_mem_filter hr2
    simpa using this
  · exact List.mem_map.mpr ⟨f, hf, hfp.symm⟩

/-- Every row path after a scan belongs to the enumerated audio files (no
uniqueness hypotheses needed). -/
theorem scan_paths_subset (db : List Song) (fs : List FSFile) (force : Bool) :
    ∀ r ∈ (scan_music_library db fs force).1,
      r.path ∈ (enum_audio fs).map (fun f => f.path) := by
  simp only [scan_music_library]
  apply foldl_inv (fun acc : List Song × Nat =>
    ∀ r ∈ acc.1, r.path ∈ (enum_audio fs).map (fun f => f.path))
  · intro r hr
    have := List.of_mem_filter hr
    simpa using this
  · intro acc g hg hacc r hr
    unfold scanStep at hr
    split at hr
    · exact hacc r hr
    · unfold add_song at hr
      rcases List.mem_append.mp hr with hr | hr
      · exact hacc r (List.mem_filter.mp hr).1
      · rw [List.mem_singleton] at hr
        subst hr
        exact List.mem_map.mpr ⟨g, hg, rfl⟩

/-- A path that survives `remove_missing` is still present after the scan
loop (no uniqueness hypotheses needed: `add_song` only replaces rows with
the very same path). -/
theorem scan_path_retained (db : List Song) (fs : List FSFile) (force : Bool)
    (r : Song) (hr : r ∈ db)
    (hp : r.path ∈ (enum_audio fs).map (fun f => f.path)) :
    r.path ∈ (scan_music_library db fs force).1.map (fun r2 => r2.path) := by
  simp only [scan_music_library]
  apply foldl_inv (fun acc : List Song × Nat =>
    r.path ∈ acc.1.map (fun r2 => r2.path))
  · refine List.mem_map.mpr ⟨r, ?_, rfl⟩
    refine List.mem_filter.mpr ⟨hr, ?_⟩
    simpa using hp
  · intro acc g _hg hacc
    unfold scanStep
    split
    · exact hacc
    · obtain ⟨r2, hr2, hr2p⟩ := List.mem_map.mp hacc
      by_cases hpg : r.path = g.path
      · refine List.mem_map.mpr
          ⟨⟨g.path, g.artist, normalize_text g.artist, g.title,
            normalize_text g.title, g.mtime⟩, ?_, hpg.symm⟩
        unfold add_song
        exact List.mem_append.mpr (Or.inr (by simp))
      · refine List.mem_map.mpr ⟨r2, ?_, hr2p⟩
        unfold add_song
        refine List.mem_append.mpr (Or.inl (List.mem_filter.mpr ⟨hr2, ?_⟩))
        simp only [decide_eq_true_eq]
        rw [hr2p]
        exact hpg

/-- When every enumerated file is skipped the loop is the identity. -/
theorem foldl_scanStep_skip (idx : String → Option ℚ) (force : Bool)
    (fl : List FSFile) (hall : ∀ f ∈ fl, shouldSkip idx force f = true) :
    ∀ acc : List Song × Nat, fl.foldl (scanStep idx force) acc = acc := by
  induction fl with
  | nil => intro acc; rfl
  | cons g t ih =>
      intro acc
      simp only [List.foldl_cons]
      rw [show scanStep idx force acc g = acc from by
        unfold scanStep; rw [if_pos (hall g (List.mem_cons_self g t))]]
      exact ih (fun f hf => hall f (List.mem_cons_of_mem g hf)) acc

/-! ## Claims C5, C8, C9 -/

/-- C5: with `force` unset and no filesystem change, a second `reconcile`
returns the same total count and performs zero metadata re-extractions
(the extraction counter of the second run is 0, so the tag-extraction
collaborator is never called). -/
theorem c5_reconcile_idempotent (db : List Song) (fs : List FSFile)
    (hdb : PathsNodup db) (hfs : (fs.map (fun f => f.path)).Nodup) :
    (scan_music_library (scan_music_library db fs false).1 fs false).2.1 =
      (scan_music_library db fs false).2.1 ∧
    (scan_music_library (scan_music_library db fs false).1 fs false).2.2 =
      0 := by
  obtain ⟨hnd, hsub, hcov⟩ := scan_spec db fs false hdb hfs
  have hrm : remove_missing (scan_music_library db fs false).1
      ((enum_audio fs).map (fun f => f.path)) =
      (scan_music_library db fs false).1 := by
    unfold remove_missing
    rw [List.filter_eq_self]
    intro r hr
    exact decide_eq_true (hsub r hr)
  have hskipall : ∀ f ∈ enum_audio fs,
      shouldSkip (lookupMtime (scan_music_library db fs false).1) false f =
        true := by
    intro f hf
    obtain ⟨r, hrmem, hrpath, hrmt⟩ := hcov f hf
    rw [shouldSkip_eq_true]
    refine ⟨rfl, r.mtime, ?_, hrmt⟩
    rw [← hrpath]
    exact lookupMtime_of_mem_nodup _ hnd r hrmem
  have htotal : (scan_music_library db fs false).2.1 =
      (scan_music_library db fs false).1.length := rfl
  set D := (scan_music_library db fs false).1 with hD
  have hsecond : scan_music_library D fs false = (D, D.length, 0) := by
    simp only [scan_music_library]
    rw [hrm, foldl_scanStep_skip (lookupMtime D) false (enum_audio fs)
      hskipall (D, 0)]
  rw [hsecond]
  exact ⟨htotal.symm, rfl⟩

/-- Modelled from the spec: the claimed case-insensitive extension match —
the path, lowercased, ends with the (lowercase) audio extension. -/
def extMatchesCI (p e : String) : Prop :=
  endsWithExact e.data (p.data.map pyLower) = true

instance (p e : String) : Decidable (extMatchesCI p e) := by
  unfold extMatchesCI
  infer_instance

/-- C8 counterexample: "a.Mp3" matches ".mp3" case-insensitively, but the
code only globs `*{ext}` and `*{ext.upper()}`, so the mixed-case file is
not enumerated at all. -/
theorem c8_counterexample :
    (∃ e ∈ AUDIO_EXTENSIONS, extMatchesCI "a.Mp3" e) ∧
    enum_audio [⟨"a.Mp3", 1, "A", "T"⟩] = [] := by
  constructor
  · refine ⟨".mp3", by decide, by decide⟩
  · decide

/-- C8 (amended): a file whose extension matches an entry of the
audio-extension set exactly in lowercase or exactly in uppercase form is
enumerated and included in the index by `reconcile`; a mixed-case
extension such as ".Mp3" matches neither glob and is not enumerated. -/
theorem c8_amended_extension_match (db : List Song) (fs : List FSFile)
    (force : Bool) (f : FSFile) (hdb : PathsNodup db)
    (hfs : (fs.map (fun f2 => f2.path)).Nodup) (hf : f ∈ fs)
    (hext : hasAudioExt f.path = true) :
    f.path ∈ (scan_music_library db fs force).1.map (fun r => r.path) := by
  obtain ⟨_, _, hcov⟩ := scan_spec db fs force hdb hfs
  obtain ⟨r, hr, hrp, _⟩ := hcov f (List.mem_filter.mpr ⟨hf, hext⟩)
  exact List.mem_map.mpr ⟨r, hr, hrp⟩

/-- C9: an indexed path no longer on disk is absent from the index after
`reconcile` — and both `find_match` and `find_match_by_title` (at any
positive threshold, covering the default 0.80) can only return paths of
index rows, so the vanished path can never be returned by either — while
an indexed path still present among the enumerated audio files is not
deleted. -/
theorem c9_deletion_on_disappearance (db : List Song) (fs : List FSFile)
    (force : Bool) :
    (∀ r ∈ db, r.path ∉ fs.map (fun f => f.path) →
      r.path ∉ (scan_music_library db fs force).1.map (fun r2 => r2.path)) ∧
    (∀ r ∈ db, r.path ∈ (enum_audio fs).map (fun f => f.path) →
      r.path ∈ (scan_music_library db fs force).1.map (fun r2 => r2.path)) ∧
    (∀ a t m, find_match (scan_music_library db fs force).1 a t = some m →
      m.path ∈ (scan_music_library db fs force).1.map (fun r2 => r2.path)) ∧
    (∀ t threshold m, 0 < threshold →
      find_match_by_title (scan_music_library db fs force).1 t threshold =
        some m →
      m.path ∈ (scan_music_library db fs force).1.map (fun r2 => r2.path)) := by
  refine ⟨?_, ?_, ?_, ?_⟩
  · intro r _hr hnot hmem
    obtain ⟨r2, hr2, hr2p⟩ := List.mem_map.mp hmem
    have := scan_paths_subset db fs force r2 hr2
    rw [hr2p] at this
    obtain ⟨f, hf, hfp⟩ := List.mem_map.mp this
    refine hnot (List.mem_map.mpr ⟨f, List.mem_of_mem_filter hf, hfp⟩)
  · intro r hr hp
    exact scan_path_retained db fs force r hr hp
  · intro a t m hm
    obtain ⟨l1, b, l2, hsplit, _, hmeq, _, _⟩ :=
      find_match_some_spec (scan_music_library db fs force).1 a t m hm
    refine List.mem_map.mpr ⟨b, ?_, by rw [hmeq]; rfl⟩
    rw [hsplit]
    simp
  · intro t threshold m hpos hm
    obtain ⟨l1, b, l2, hsplit, _, hmeq, _, _⟩ :=
      find_match_by_title_some_spec (scan_music_library db fs force).1 t
        threshold hpos m hm
    refine List.mem_map.mpr ⟨b, ?_, by rw [hmeq]; rfl⟩
    rw [hsplit]
    simp

/-! ## Evaluation lemmas for the concrete witnesses

The Batteries rational arithmetic is `@[irreducible]`, so `decide` cannot
evaluate `similarity` scores; the integer part (`matchesTotal`, lengths,
normalization) is decided and the rational part handed to `norm_num`. -/

theorem similarity_eval (s1 s2 : String) (M l1 l2 : Nat)
    (hM : matchesTotal s1.data s2.data = M)
    (h1 : s1.data.length = l1) (h2 : s2.data.length = l2)
    (hne : l1 + l2 ≠ 0) :
    similarity s1 s2 = (2 * M : ℚ) / ((l1 : ℚ) + (l2 : ℚ)) := by
  simp only [similarity, hM, h1, h2]
  rw [if_neg hne]

/-! ## Concrete witnesses -/

/-- A library row whose normalized fields match the query exactly. -/
def songA : Song := ⟨"p1", "Artist", "artist", "Title", "title", 1⟩

/-- A row with an exact four-letter normalized title. -/
def songExact : Song := ⟨"p2", "A", "a", "T", "abcd", 1⟩

/-- A row whose title similarity to "abcd" is exactly 0.75. -/
def songNear : Song := ⟨"p3", "A", "a", "Tx", "abcx", 1⟩

set_option maxRecDepth 8192

theorem sim_artist : similarity "artist" "artist" = 1 := by
  rw [similarity_eval "artist" "artist" 6 6 6 (by decide) (by decide)
    (by decide) (by decide)]
  norm_num

theorem sim_title : similarity "title" "title" = 1 := by
  rw [similarity_eval "title" "title" 5 5 5 (by decide) (by decide)
    (by decide) (by decide)]
  norm_num

theorem sim_artist_a : similarity "artist" "a" = 2/7 := by
  rw [similarity_eval "artist" "a" 1 6 1 (by decide) (by decide)
    (by decide) (by decide)]
  norm_num

theorem sim_abcd_title : similarity "abcd" "title" = 0 := by
  rw [similarity_eval "abcd" "title" 0 4 5 (by decide) (by decide)
    (by decide) (by decide)]
  norm_num

theorem sim_abcd : similarity "abcd" "abcd" = 1 := by
  rw [similarity_eval "abcd" "abcd" 4 4 4 (by decide) (by decide)
    (by decide) (by decide)]
  norm_num

theorem sim_abcx : similarity "abcd" "abcx" = 3/4 := by
  rw [similarity_eval "abcd" "abcx" 3 4 4 (by decide) (by decide)
    (by decide) (by decide)]
  norm_num

theorem norm_Artist : normalize_text "Artist" = "artist" := by decide

theorem norm_Title : normalize_text "Title" = "title" := by decide

theorem norm_abcd : normalize_text "abcd" = "abcd" := by decide

theorem passes_songA : passes "artist" "title" songA := by
  constructor
  · show SIMILARITY_THRESHOLD ≤ similarity "artist" songA.artist_norm
    rw [show songA.artist_norm = "artist" from rfl, sim_artist,
      SIMILARITY_THRESHOLD]
    norm_num
  · show SIMILARITY_THRESHOLD ≤ similarity "title" songA.title_norm
    rw [show songA.title_norm = "title" from rfl, sim_title,
      SIMILARITY_THRESHOLD]
    norm_num

theorem not_passes_songExact : ¬ passes "artist" "title" songExact := by
  intro h
  have h1 := h.1
  rw [show songExact.artist_norm = "a" from rfl, sim_artist_a,
    SIMILARITY_THRESHOLD] at h1
  norm_num at h1

theorem rscore_songA : rscore "artist" "title" songA = 1 := by
  unfold rscore
  rw [show songA.artist_norm = "artist" from rfl,
    show songA.title_norm = "title" from rfl, sim_artist, sim_title]
  norm_num

theorem fm_eval_1 :
    find_match [songA] "Artist" "Title" =
      some ⟨"p1", "Artist", "Title", 1⟩ := by
  unfold find_match
  rw [norm_Artist, norm_Title]
  simp only [List.foldl_cons, List.foldl_nil]
  rw [fmStep_passes "artist" "title" (none, 0) songA passes_songA,
    rscore_songA]
  rw [if_pos (by norm_num : ((none : Option MatchResult), (0 : ℚ)).2 < 1)]
  rfl

theorem fm_eval_2 :
    find_match [songA, songExact] "Artist" "Title" =
      some ⟨"p1", "Artist", "Title", 1⟩ := by
  unfold find_match
  rw [norm_Artist, norm_Title]
  simp only [List.foldl_cons, List.foldl_nil]
  rw [fmStep_passes "artist" "title" (none, 0) songA passes_songA,
    rscore_songA]
  rw [if_pos (by norm_num : ((none : Option MatchResult), (0 : ℚ)).2 < 1)]
  rw [fmStep_not_passes "artist" "title" _ songExact not_passes_songExact]
  rfl

theorem not_tpasses_songA : ¬ tpasses "abcd" (8/10) songA := by
  intro h
  have h1 : (8/10 : ℚ) ≤ similarity "abcd" songA.title_norm := h
  rw [show songA.title_norm = "title" from rfl, sim_abcd_title] at h1
  norm_num at h1

theorem not_tpasses_songNear : ¬ tpasses "abcd" (8/10) songNear := by
  intro h
  have h1 : (8/10 : ℚ) ≤ similarity "abcd" songNear.title_norm := h
  rw [show songNear.title_norm = "abcx" from rfl, sim_abcx] at h1
  norm_num at h1

theorem tpasses_songExact : tpasses "abcd" (8/10) songExact := by
  show (8/10 : ℚ) ≤ similarity "abcd" songExact.title_norm
  rw [show songExact.title_norm = "abcd" from rfl, sim_abcd]
  norm_num

theorem ft_eval_1 :
    find_match_by_title [songA, songExact] "abcd" (8/10) =
      some ⟨"p2", "A", "T", 1⟩ := by
  unfold find_match_by_title
  rw [norm_abcd]
  simp only [List.foldl_cons, List.foldl_nil]
  rw [ftStep_not_passes "abcd" (8/10) (none, 0) songA not_tpasses_songA]
  rw [ftStep_passes "abcd" (8/10) (none, 0) songExact tpasses_songExact]
  rw [show songExact.title_norm = "abcd" from rfl, sim_abcd]
  rw [if_pos (by norm_num : ((none : Option MatchResult), (0 : ℚ)).2 < 1)]
  rfl

theorem ft_eval_2 :
    find_match_by_title [songNear, songExact] "abcd" (8/10) =
      some ⟨"p2", "A", "T", 1⟩ := by
  unfold find_match_by_title
  rw [norm_abcd]
  simp only [List.foldl_cons, List.foldl_nil]
  rw [ftStep_not_passes "abcd" (8/10) (none, 0) songNear not_tpasses_songNear]
  rw [ftStep_passes "abcd" (8/10) (none, 0) songExact tpasses_songExact]
  rw [show songExact.title_norm = "abcd" from rfl, sim_abcd]
  rw [if_pos (by norm_num : ((none : Option MatchResult), (0 : ℚ)).2 < 1)]
  rfl

/-- The index row kept by the reconcile run of the C9 witness. -/
def songStay : Song := ⟨"stay.mp3", "A", "a", "T", "t", 1⟩

theorem sim_t : similarity "t" "t" = 1 := by
  rw [similarity_eval "t" "t" 1 1 1 (by decide) (by decide) (by decide)
    (by decide)]
  norm_num

theorem norm_t : normalize_text "t" = "t" := by decide

theorem tpasses_songStay : tpasses "t" (8/10) songStay := by
  show (8/10 : ℚ) ≤ similarity "t" songStay.title_norm
  rw [show songStay.title_norm = "t" from rfl, sim_t]
  norm_num

theorem ft_eval_3 :
    find_match_by_title [songStay] "t" (8/10) =
      some ⟨"stay.mp3", "A", "T", 1⟩ := by
  unfold find_match_by_title
  rw [norm_t]
  simp only [List.foldl_cons, List.foldl_nil]
  rw [ftStep_passes "t" (8/10) (none, 0) songStay tpasses_songStay]
  rw [show songStay.title_norm = "t" from rfl, sim_t]
  rw [if_pos (by norm_num : ((none : Option MatchResult), (0 : ℚ)).2 < 1)]
  rfl

theorem scan_eval_stay :
    (scan_music_library [⟨"gone.mp3", "A", "a", "T", "t", 1⟩, songStay]
      [⟨"stay.mp3", 1, "A", "T"⟩] false).1 = [songStay] := by decide

theorem c1_find_match_spec_witness :
    ∃ l1 b l2, [songA] = l1 ++ b :: l2 ∧
      passes (normalize_text "Artist") (normalize_text "Title") b ∧
      (⟨"p1", "Artist", "Title", (1 : ℚ)⟩ : MatchResult) =
        mkResult b
          (rscore (normalize_text "Artist") (normalize_text "Title") b) ∧
      (∀ r ∈ [songA],
        passes (normalize_text "Artist") (normalize_text "Title") r →
        rscore (normalize_text "Artist") (normalize_text "Title") r ≤
          (⟨"p1", "Artist", "Title", (1 : ℚ)⟩ : MatchResult).score) ∧
      (∀ r ∈ l1,
        passes (normalize_text "Artist") (normalize_text "Title") r →
        rscore (normalize_text "Artist") (normalize_text "Title") r <
          (⟨"p1", "Artist", "Title", (1 : ℚ)⟩ : MatchResult).score) :=
  (c1_find_match_spec [songA] "Artist" "Title").2
    ⟨"p1", "Artist", "Title", (1 : ℚ)⟩ fm_eval_1

theorem c2_find_match_by_title_spec_witness :
    (∃ l1 b l2, [songNear, songExact] = l1 ++ b :: l2 ∧
      (8/10 : ℚ) ≤ similarity (normalize_text "abcd") b.title_norm ∧
      (⟨"p2", "A", "T", (1 : ℚ)⟩ : MatchResult) =
        mkResult b (similarity (normalize_text "abcd") b.title_norm) ∧
      (∀ r ∈ [songNear, songExact],
        (8/10 : ℚ) ≤ similarity (normalize_text "abcd") r.title_norm →
        similarity (normalize_text "abcd") r.title_norm ≤
          (⟨"p2", "A", "T", (1 : ℚ)⟩ : MatchResult).score) ∧
      (∀ r ∈ l1,
        (8/10 : ℚ) ≤ similarity (normalize_text "abcd") r.title_norm →
        similarity (normalize_text "abcd") r.title_norm <
          (⟨"p2", "A", "T", (1 : ℚ)⟩ : MatchResult).score)) ∧
    (⟨"p2", "A", "T", (1 : ℚ)⟩ : MatchResult) ≠
      mkResult songNear (similarity (normalize_text "abcd")
        songNear.title_norm) :=
  ⟨(c2_find_match_by_title_spec [songNear, songExact] "abcd").2.1
      ⟨"p2", "A", "T", (1 : ℚ)⟩ ft_eval_2,
    (c2_find_match_by_title_spec [songNear, songExact] "abcd").2.2
      songNear (by simp)
      (by rw [norm_abcd, show songNear.title_norm = "abcx" from rfl,
            sim_abcx, SIMILARITY_THRESHOLD]
          norm_num)
      (by rw [norm_abcd, show songNear.title_norm = "abcx" from rfl,
            sim_abcx]
          norm_num)
      ⟨"p2", "A", "T", (1 : ℚ)⟩ ft_eval_2⟩

theorem c4_norm_cache_invariant_witness :
    RowInv (⟨"p", "A", normalize_text "A", "T", normalize_text "T",
      (1 : ℚ)⟩ : Song) :=
  (c4_norm_cache_invariant [] (by simp)).1 "p" "A" "T" 1
    ⟨"p", "A", normalize_text "A", "T", normalize_text "T", 1⟩
    (by simp [add_song])

theorem c5_reconcile_idempotent_witness :
    (scan_music_library
        (scan_music_library [] [⟨"a.mp3", 1, "X", "Y"⟩] false).1
        [⟨"a.mp3", 1, "X", "Y"⟩] false).2.1 =
      (scan_music_library [] [⟨"a.mp3", 1, "X", "Y"⟩] false).2.1 ∧
    (scan_music_library
        (scan_music_library [] [⟨"a.mp3", 1, "X", "Y"⟩] false).1
        [⟨"a.mp3", 1, "X", "Y"⟩] false).2.2 = 0 :=
  c5_reconcile_idempotent [] [⟨"a.mp3", 1, "X", "Y"⟩]
    (by simp [PathsNodup]) (by simp)

theorem c8_amended_extension_match_witness :
    "a.mp3" ∈ (scan_music_library [] [⟨"a.mp3", 1, "X", "Y"⟩]
      false).1.map (fun r => r.path) :=
  c8_amended_extension_match [] [⟨"a.mp3", 1, "X", "Y"⟩] false
    ⟨"a.mp3", 1, "X", "Y"⟩ (by simp [PathsNodup]) (by simp) (by simp)
    (by decide)

theorem c9_deletion_on_disappearance_witness :
    "gone.mp3" ∉ (scan_music_library
      [⟨"gone.mp3", "A", "a", "T", "t", 1⟩, songStay]
      [⟨"stay.mp3", 1, "A", "T"⟩] false).1.map (fun r2 => r2.path) ∧
    "stay.mp3" ∈ (scan_music_library
      [⟨"gone.mp3", "A", "a", "T", "t", 1⟩, songStay]
      [⟨"stay.mp3", 1, "A", "T"⟩] false).1.map (fun r2 => r2.path) ∧
    (⟨"stay.mp3", "A", "T", (1 : ℚ)⟩ : MatchResult).path ∈
      (scan_music_library
        [⟨"gone.mp3", "A", "a", "T", "t", 1⟩, songStay]
        [⟨"stay.mp3", 1, "A", "T"⟩] false).1.map (fun r2 => r2.path) :=
  ⟨(c9_deletion_on_disappearance
      [⟨"gone.mp3", "A", "a", "T", "t", 1⟩, songStay]
      [⟨"stay.mp3", 1, "A", "T"⟩] false).1
      ⟨"gone.mp3", "A", "a", "T", "t", 1⟩ (by decide) (by decide),
    (c9_deletion_on_disappearance
      [⟨"gone.mp3", "A", "a", "T", "t", 1⟩, songStay]
      [⟨"stay.mp3", 1, "A", "T"⟩] false).2.1
      songStay (by simp) (by decide),
    (c9_deletion_on_disappearance
      [⟨"gone.mp3", "A", "a", "T", "t", 1⟩, songStay]
      [⟨"stay.mp3", 1, "A", "T"⟩] false).2.2.2 "t" (8/10)
      ⟨"stay.mp3", "A", "T", (1 : ℚ)⟩ (by norm_num)
      (by rw [scan_eval_stay]; exact ft_eval_3)⟩

theorem c10_score_bounds_witness :
    ((7/10 : ℚ) ≤ (⟨"p1", "Artist", "Title", (1 : ℚ)⟩ : MatchResult).score ∧
      (⟨"p1", "Artist", "Title", (1 : ℚ)⟩ : MatchResult).score ≤ 1) ∧
    ((8/10 : ℚ) ≤ (⟨"p2", "A", "T", (1 : ℚ)⟩ : MatchResult).score ∧
      (⟨"p2", "A", "T", (1 : ℚ)⟩ : MatchResult).score ≤ 1) :=
  ⟨c10_score_bounds.1 [songA] "Artist" "Title"
      ⟨"p1", "Artist", "Title", (1 : ℚ)⟩ fm_eval_1,
    c10_score_bounds.2 [songA, songExact] "abcd"
      ⟨"p2", "A", "T", (1 : ℚ)⟩ ft_eval_1⟩

end Fetchfm
